import Mathlib

/-!
Verification development for the hydra-cached recursive instantiation engine
(src/hydra_cached/execution/hydra.py, hydra_utils.py, caching/*.py).

The configuration trees manipulated by the engine are OmegaConf containers;
the engine itself (instantiate_node), the metadata combiner
(InstantiatedNodeInfo.combine), the in-memory cache and the dump routine are
translated here into a shallow embedding.  Runtime values (constructor
results, plain containers, OmegaConf containers holding instances) are
modelled by the type Value; configuration trees by the type CNode.  The
structural equality and hash used for cache keying live in the external
OmegaConf dependency, which is not part of this repository; they are
modelled from the spec (section 4.1): equality is recursive, mapping key
order is irrelevant, sequence order is significant.  We realise this by
comparing canonical forms (CNode.norm) in every cache operation.

Python None is modelled as the scalar Value.vnull; wall-clock durations are
not modelled (the measured time_target is set to a fixed token some 0, which
preserves every dataflow fact the claims are about); the joblib.hash content
digest is modelled by an injective encoding of the hashed value into Nat,
proved injective below (the digest of the real library is a cryptographic
hash assumed collision-free by the design).
-/

mutual

/-- Runtime values: scalars, plain containers, OmegaConf containers holding
instances (isCfg = true marks an OmegaConf container, mirroring
ListConfig/DictConfig versus plain list/dict), and opaque constructed
objects. -/
inductive Value where
  | vnull
  | vbool (b : Bool)
  | vint (n : Int)
  | vstr (s : String)
  | vlist (isCfg : Bool) (items : Values)
  | vdict (isCfg : Bool) (entries : VEntries)
  | vobj (tag : String) (fields : VEntries)
deriving DecidableEq, Repr

/-- Lists of values (a mutual companion of Value). -/
inductive Values where
  | nil
  | cons (head : Value) (tail : Values)
deriving DecidableEq, Repr

/-- String-keyed entry lists of values (a mutual companion of Value). -/
inductive VEntries where
  | nil
  | cons (key : String) (val : Value) (tail : VEntries)
deriving DecidableEq, Repr

end

mutual

/-- Configuration tree nodes: a scalar leaf (a plain value, Python None, or a
pass-through object), an ordered sequence (ListConfig), or a key-ordered
mapping (DictConfig).  A Call node is a mapping that contains the key
"_target_". -/
inductive CNode where
  | scalar (v : Value)
  | seq (items : CNodes)
  | mapping (entries : CEntries)
deriving DecidableEq, Repr

/-- Lists of configuration nodes (a mutual companion of CNode). -/
inductive CNodes where
  | nil
  | cons (head : CNode) (tail : CNodes)
deriving DecidableEq, Repr

/-- String-keyed entry lists of configuration nodes (a mutual companion of
CNode). -/
inductive CEntries where
  | nil
  | cons (key : String) (val : CNode) (tail : CEntries)
deriving DecidableEq, Repr

end

/-- Lookup of the first entry with the given key, mirroring Python mapping
access (keys are unique in any tree produced by the loader). -/
def CEntries.lookup : CEntries → String → Option CNode
  | CEntries.nil, _ => Option.none
  | CEntries.cons k v rest, s => if k = s then Option.some v else rest.lookup s

/-- Membership of a key in an entry list. -/
def CEntries.hasKey (es : CEntries) (s : String) : Bool :=
  (es.lookup s).isSome

/-- Set the value stored at a key, in place when the key is present,
appended at the end otherwise; this mirrors Python DictConfig item
assignment. -/
def CEntries.set : CEntries → String → CNode → CEntries
  | CEntries.nil, s, v => CEntries.cons s v CEntries.nil
  | CEntries.cons k old rest, s, v =>
      if k = s then CEntries.cons s v rest else CEntries.cons k old (rest.set s v)

/-- Set the element stored at a position, mirroring Python ListConfig item
assignment (positions used by the engine are always in range). -/
def CNodes.set : CNodes → Nat → CNode → CNodes
  | CNodes.nil, _, _ => CNodes.nil
  | CNodes.cons _ t, 0, v => CNodes.cons v t
  | CNodes.cons h t, Nat.succ i, v => CNodes.cons h (t.set i v)

/-- Conversion of an entry list to a standard list, used to reuse list
lemmas from the library. -/
def CEntries.toList : CEntries → List (String × CNode)
  | CEntries.nil => []
  | CEntries.cons k v rest => (k, v) :: rest.toList

/-- Conversion of a standard list back to an entry list. -/
def CEntries.ofList : List (String × CNode) → CEntries
  | [] => CEntries.nil
  | (k, v) :: rest => CEntries.cons k v (CEntries.ofList rest)

/-- Conversion of a node list to a standard list. -/
def CNodes.toList : CNodes → List CNode
  | CNodes.nil => []
  | CNodes.cons h t => h :: t.toList

/-- Conversion of a standard list to a node list. -/
def CNodes.ofList : List CNode → CNodes
  | [] => CNodes.nil
  | h :: t => CNodes.cons h (CNodes.ofList t)

/-- Injectivity of the numeric code of a machine word, used to transfer
character comparisons to Nat. -/
theorem uint32_toNat_inj {a b : UInt32} (h : a.toNat = b.toNat) : a = b := by
  cases a; cases b
  simp only [UInt32.toNat] at h
  congr 1
  exact BitVec.eq_of_toNat_eq h

/-- Injectivity of the numeric code of a character. -/
theorem char_toNat_inj {a b : Char} (h : a.toNat = b.toNat) : a = b := by
  apply Char.eq_of_val_eq
  exact uint32_toNat_inj h

/-- Lexicographic comparison of character lists by numeric code; a computable
total order used to sort mapping keys in the canonical form. -/
def strLeAux : List Char → List Char → Bool
  | [], _ => true
  | _ :: _, [] => false
  | a :: as, b :: bs =>
      if a.toNat < b.toNat then true
      else if b.toNat < a.toNat then false
      else strLeAux as bs

/-- Lexicographic comparison of strings by character codes. -/
def strLe (a b : String) : Bool := strLeAux a.data b.data

theorem strLeAux_total : ∀ as bs, strLeAux as bs = true ∨ strLeAux bs as = true
  | [], _ => Or.inl rfl
  | _ :: _, [] => Or.inr rfl
  | a :: as, b :: bs => by
      simp only [strLeAux]
      rcases Nat.lt_trichotomy a.toNat b.toNat with h | h | h
      · left; simp [h]
      · have h2 : ¬ a.toNat < b.toNat := by omega
        have h3 : ¬ b.toNat < a.toNat := by omega
        simpa [h2, h3] using strLeAux_total as bs
      · right; simp [h]

theorem strLeAux_trans : ∀ as bs cs, strLeAux as bs = true → strLeAux bs cs = true →
    strLeAux as cs = true
  | [], _, _, _, _ => rfl
  | a :: as, [], cs, h, _ => by simp [strLeAux] at h
  | _ :: _, _ :: _, [], _, h2 => by simp [strLeAux] at h2
  | a :: as, b :: bs, c :: cs, h, h2 => by
      simp only [strLeAux] at h h2 ⊢
      rcases Nat.lt_trichotomy a.toNat b.toNat with hab | hab | hab
      · rcases Nat.lt_trichotomy b.toNat c.toNat with hbc | hbc | hbc
        · have hac : a.toNat < c.toNat := by omega
          simp [hac]
        · have hac : a.toNat < c.toNat := by omega
          simp [hac]
        · exfalso
          have h3 : ¬ b.toNat < c.toNat := by omega
          simp [h3, hbc] at h2
      · rcases Nat.lt_trichotomy b.toNat c.toNat with hbc | hbc | hbc
        · have hac : a.toNat < c.toNat := by omega
          simp [hac]
        · have h3 : ¬ a.toNat < c.toNat := by omega
          have h4 : ¬ c.toNat < a.toNat := by omega
          have h5 : ¬ a.toNat < b.toNat := by omega
          have h6 : ¬ b.toNat < a.toNat := by omega
          have h7 : ¬ b.toNat < c.toNat := by omega
          have h8 : ¬ c.toNat < b.toNat := by omega
          simp only [h5, h6, if_false, if_neg] at h
          simp only [h7, h8, if_false, if_neg] at h2
          simp only [h3, h4, if_false, if_neg]
          exact strLeAux_trans as bs cs h h2
        · exfalso
          have h3 : ¬ b.toNat < c.toNat := by omega
          simp [h3, hbc] at h2
      · exfalso
        have h3 : ¬ a.toNat < b.toNat := by omega
        simp [h3, hab] at h

theorem strLeAux_antisymm : ∀ as bs, strLeAux as bs = true → strLeAux bs as = true →
    as = bs
  | [], [], _, _ => rfl
  | [], _ :: _, _, h2 => by simp [strLeAux] at h2
  | _ :: _, [], h, _ => by simp [strLeAux] at h
  | a :: as, b :: bs, h, h2 => by
      simp only [strLeAux] at h h2
      by_cases hab : a.toNat < b.toNat <;> by_cases hba : b.toNat < a.toNat <;>
        simp_all
      · omega
      · have hn : a.toNat = b.toNat := by omega
        exact ⟨char_toNat_inj hn, strLeAux_antisymm as bs h h2⟩

theorem strLe_total (a b : String) : strLe a b = true ∨ strLe b a = true :=
  strLeAux_total a.data b.data

theorem strLe_trans {a b c : String} (h : strLe a b = true) (h2 : strLe b c = true) :
    strLe a c = true :=
  strLeAux_trans a.data b.data c.data h h2

theorem strLe_antisymm {a b : String} (h : strLe a b = true) (h2 : strLe b a = true) :
    a = b :=
  String.ext (strLeAux_antisymm a.data b.data h h2)

/-- Key order used to sort mapping entries in the canonical form. -/
def entryLE (a b : String × CNode) : Prop := strLe a.fst b.fst = true

instance : DecidableRel entryLE :=
  fun a b => inferInstanceAs (Decidable (strLe a.fst b.fst = true))

instance : IsTotal (String × CNode) entryLE :=
  ⟨fun a b => strLe_total a.fst b.fst⟩

instance : IsTrans (String × CNode) entryLE :=
  ⟨fun _ _ _ h h2 => strLe_trans h h2⟩

mutual

/-- Canonical form of a configuration tree, modelled from the spec: mapping
key insertion order is irrelevant to structural equality, so the canonical
form sorts mapping entries by key; sequence order is significant and is
preserved.  Two trees are equal as cache keys exactly when their canonical
forms coincide. -/
def CNode.norm : CNode → CNode
  | CNode.scalar v => CNode.scalar v
  | CNode.seq items => CNode.seq items.norm
  | CNode.mapping entries =>
      CNode.mapping (CEntries.ofList
        (List.insertionSort entryLE (CEntries.toList entries.norm)))

/-- Canonical form of every element of a node list. -/
def CNodes.norm : CNodes → CNodes
  | CNodes.nil => CNodes.nil
  | CNodes.cons h t => CNodes.cons h.norm t.norm

/-- Canonical form of every value of an entry list. -/
def CEntries.norm : CEntries → CEntries
  | CEntries.nil => CEntries.nil
  | CEntries.cons k v rest => CEntries.cons k v.norm rest.norm

end

/-- Cache key equality, modelled from the spec: total, reflexive,
deterministic structural equality that ignores mapping key order. -/
def cnKeyEq (a b : CNode) : Bool := decide (a.norm = b.norm)

mutual

/-- Structural size of a configuration tree; the canonical form preserves it,
and every proper subtree is strictly smaller, which makes it usable to show
that evaluating children never stores an entry under the key of the parent. -/
def CNode.sz : CNode → Nat
  | CNode.scalar _ => 1
  | CNode.seq items => 1 + items.sz
  | CNode.mapping entries => 1 + entries.sz

/-- Total size of a node list. -/
def CNodes.sz : CNodes → Nat
  | CNodes.nil => 0
  | CNodes.cons h t => h.sz + t.sz

/-- Total size of an entry list (keys do not contribute, so reordering
preserves it). -/
def CEntries.sz : CEntries → Nat
  | CEntries.nil => 0
  | CEntries.cons _ v rest => v.sz + rest.sz

end

/-- Cache key hash, modelled from the spec: a stable hash consistent with
the key equality (any function of the canonical form qualifies). -/
def cnKeyHash (a : CNode) : Nat := a.norm.sz

example : cnKeyEq
    (CNode.mapping (CEntries.cons "a" (CNode.scalar Value.vnull)
      (CEntries.cons "b" (CNode.scalar (Value.vint 1)) CEntries.nil)))
    (CNode.mapping (CEntries.cons "b" (CNode.scalar (Value.vint 1))
      (CEntries.cons "a" (CNode.scalar Value.vnull) CEntries.nil))) = true := by decide

example : cnKeyEq
    (CNode.seq (CNodes.cons (CNode.scalar Value.vnull)
      (CNodes.cons (CNode.scalar (Value.vint 1)) CNodes.nil)))
    (CNode.seq (CNodes.cons (CNode.scalar (Value.vint 1))
      (CNodes.cons (CNode.scalar Value.vnull) CNodes.nil))) = false := by decide

/-- Injective encoding of an integer into Nat. -/
def encInt : Int → Nat
  | Int.ofNat m => 2 * m
  | Int.negSucc m => 2 * m + 1

theorem encInt_inj : ∀ {a b : Int}, encInt a = encInt b → a = b
  | Int.ofNat m, Int.ofNat n, h => by
      simp only [encInt] at h
      exact congrArg Int.ofNat (by omega)
  | Int.ofNat m, Int.negSucc n, h => by simp only [encInt] at h; omega
  | Int.negSucc m, Int.ofNat n, h => by simp only [encInt] at h; omega
  | Int.negSucc m, Int.negSucc n, h => by
      simp only [encInt] at h
      exact congrArg Int.negSucc (by omega)

/-- Injective encoding of a list of codes into a single code. -/
def encListNat : List Nat → Nat
  | [] => 0
  | x :: xs => Nat.pair x (encListNat xs) + 1

theorem encListNat_inj : ∀ as bs : List Nat, encListNat as = encListNat bs → as = bs
  | [], [], _ => rfl
  | [], _ :: _, h => absurd h (by simp only [encListNat]; omega)
  | _ :: _, [], h => absurd h (by simp only [encListNat]; omega)
  | a :: as, b :: bs, h => by
      simp only [encListNat] at h
      have h2 : Nat.pair a (encListNat as) = Nat.pair b (encListNat bs) := by omega
      rw [Nat.pair_eq_pair] at h2
      rw [h2.1, encListNat_inj as bs h2.2]

/-- Injective encoding of a string. -/
def encStr (s : String) : Nat := encListNat (s.data.map Char.toNat)

theorem encStr_inj {a b : String} (h : encStr a = encStr b) : a = b := by
  apply String.ext
  have h2 := encListNat_inj _ _ h
  exact List.map_injective_iff.mpr (fun x y hxy => char_toNat_inj hxy) h2

mutual

/-- Model of the joblib.hash content digest: an injective encoding of a
runtime value into Nat.  The real digest is a cryptographic hash of the
pickled value, assumed collision-free by the design; injectivity is the
property the engine relies on and is proved below. -/
def Value.encode : Value → Nat
  | Value.vnull => Nat.pair 0 0
  | Value.vbool b => Nat.pair 1 (cond b 1 0)
  | Value.vint n => Nat.pair 2 (encInt n)
  | Value.vstr s => Nat.pair 3 (encStr s)
  | Value.vlist c items => Nat.pair 4 (Nat.pair (cond c 1 0) items.encode)
  | Value.vdict c entries => Nat.pair 5 (Nat.pair (cond c 1 0) entries.encode)
  | Value.vobj t fields => Nat.pair 6 (Nat.pair (encStr t) fields.encode)

/-- Encoding of a value list. -/
def Values.encode : Values → Nat
  | Values.nil => 0
  | Values.cons h t => Nat.pair h.encode t.encode + 1

/-- Encoding of a value entry list. -/
def VEntries.encode : VEntries → Nat
  | VEntries.nil => 0
  | VEntries.cons k v t => Nat.pair (encStr k) (Nat.pair v.encode t.encode) + 1

end

mutual

theorem Value.encode_inj : ∀ v w : Value, v.encode = w.encode → v = w
  | v, w, h => by
      cases v <;> cases w <;>
        simp only [Value.encode, Nat.pair_eq_pair] at h <;>
        (try exact absurd h.1 (by decide)) <;> (try rfl)
      · rename_i a b
        rcases h with ⟨-, h2⟩
        cases a <;> cases b <;> simp_all
      · rename_i a b
        rcases h with ⟨-, h2⟩
        exact congrArg Value.vint (encInt_inj h2)
      · rename_i a b
        rcases h with ⟨-, h2⟩
        exact congrArg Value.vstr (encStr_inj h2)
      · rename_i c1 l1 c2 l2
        rcases h with ⟨-, h2⟩
        have hcc : c1 = c2 := by
          have := h2.1
          cases c1 <;> cases c2 <;> simp_all
        rw [hcc, Values.encode_inj_list l1 l2 h2.2]
      · rename_i c1 l1 c2 l2
        rcases h with ⟨-, h2⟩
        have hcc : c1 = c2 := by
          have := h2.1
          cases c1 <;> cases c2 <;> simp_all
        rw [hcc, VEntries.encode_inj_entries l1 l2 h2.2]
      · rename_i t1 l1 t2 l2
        rcases h with ⟨-, h2⟩
        rw [encStr_inj h2.1, VEntries.encode_inj_entries l1 l2 h2.2]

theorem Values.encode_inj_list : ∀ v w : Values, v.encode = w.encode → v = w
  | Values.nil, Values.nil, _ => rfl
  | Values.nil, Values.cons _ _, h => absurd h (by simp only [Values.encode]; omega)
  | Values.cons _ _, Values.nil, h => absurd h (by simp only [Values.encode]; omega)
  | Values.cons a as, Values.cons b bs, h => by
      simp only [Values.encode] at h
      have h2 : Nat.pair a.encode as.encode = Nat.pair b.encode bs.encode := by omega
      rw [Nat.pair_eq_pair] at h2
      rw [Value.encode_inj a b h2.1, Values.encode_inj_list as bs h2.2]

theorem VEntries.encode_inj_entries : ∀ v w : VEntries, v.encode = w.encode → v = w
  | VEntries.nil, VEntries.nil, _ => rfl
  | VEntries.nil, VEntries.cons _ _ _, h => absurd h (by simp only [VEntries.encode]; omega)
  | VEntries.cons _ _ _, VEntries.nil, h => absurd h (by simp only [VEntries.encode]; omega)
  | VEntries.cons k1 v1 t1, VEntries.cons k2 v2 t2, h => by
      simp only [VEntries.encode] at h
      have h2 : Nat.pair (encStr k1) (Nat.pair v1.encode t1.encode) =
          Nat.pair (encStr k2) (Nat.pair v2.encode t2.encode) := by omega
      rw [Nat.pair_eq_pair] at h2
      obtain ⟨hk, hv⟩ := h2
      rw [Nat.pair_eq_pair] at hv
      rw [encStr_inj hk, Value.encode_inj v1 v2 hv.1, VEntries.encode_inj_entries t1 t2 hv.2]

end

/-- Child index within a parent container: a position for sequences, a key
for mappings; mirrors the int or str keys of the infos dict passed to
combine. -/
inductive CKey where
  | idx (i : Nat)
  | key (s : String)
deriving DecidableEq, Repr

/-- Item assignment on a parent configuration at a child index, mirroring
deterministic_config[k] = ... in combine; the shape-mismatch fallback is
unreachable from the engine, which always passes a key of the parent. -/
def setChild (parent : CNode) (k : CKey) (child : CNode) : CNode :=
  match parent, k with
  | CNode.seq items, CKey.idx i => CNode.seq (items.set i child)
  | CNode.mapping entries, CKey.key s => CNode.mapping (entries.set s child)
  | p, _ => p

/-- Translation of FuncInfo (hydra_utils.py): the object attached to a
registered callable, recording whether it was marked by the
not_deterministic decorator. -/
structure FuncInfo where
  not_deterministic : Bool := false
deriving DecidableEq, Repr

/-- Translation of InstantiatedNodeInfo (hydra_utils.py).  The measured
wall-clock duration time_target is modelled as an Option Nat token; the
engine sets it to some 0 after execution, which preserves the is-set
dataflow without modelling real time. -/
structure InstantiatedNodeInfo where
  not_deterministic : Bool := false
  cache_result : Bool := true
  deterministic_config : Option CNode := Option.none
  time_target : Option Nat := Option.none
deriving DecidableEq, Repr

/-- Translation of InstantiatedNode (hydra_utils.py); the field inst holds
the actual instantiated value (named instance in the source, a reserved
word here). -/
structure InstantiatedNode where
  inst : Value
  info : InstantiatedNodeInfo := {}
deriving DecidableEq, Repr

/-- Translation of InstantiatedNodeInfo.combine (hydra_utils.py lines
50 to 84).  The infos list carries the child metadata in insertion order;
parent_config, target_info and deterministic_config mirror the optional
parameters of the source.  When deterministic_config is absent the source
asserts that parent_config is present; the engine always satisfies this,
and the model simply leaves the substitute absent in the unreachable
violating case. -/
def combine_dc_step (parent_config : Option CNode) (acc : Option CNode)
    (ki : CKey × InstantiatedNodeInfo) : Option CNode :=
  match ki.snd.deterministic_config with
  | Option.none => acc
  | Option.some childDC =>
      match acc, parent_config with
      | Option.none, Option.some pc => Option.some (setChild pc ki.fst childDC)
      | Option.none, Option.none => Option.none
      | Option.some cur, _ => Option.some (setChild cur ki.fst childDC)

def InstantiatedNodeInfo.combine (infos : List (CKey × InstantiatedNodeInfo))
    (parent_config : Option CNode) (target_info : Option InstantiatedNodeInfo)
    (deterministic_config : Option CNode) : InstantiatedNodeInfo :=
  let dc :=
    match deterministic_config with
    | Option.some d => Option.some d
    | Option.none => infos.foldl (combine_dc_step parent_config) Option.none
  let infos_list := infos.map Prod.snd
  let all_infos :=
    match target_info with
    | Option.some ti => infos_list ++ [ti]
    | Option.none => infos_list
  let nd :=
    match target_info with
    | Option.some ti => ti.not_deterministic
    | Option.none => false
  { not_deterministic := nd,
    cache_result := all_infos.all (fun i => i.cache_result),
    deterministic_config := dc,
    time_target := Option.none }

/-- Errors raised by the engine: failed target resolution, a raising
constructor, and an invalid reserved flag value. -/
inductive EvalError where
  | unresolvedTarget (msg : String)
  | constructionError (msg : String)
  | typeError (msg : String)
deriving DecidableEq, Repr

/-- A registered constructor: the callable, modelled as a function from
positional and keyword arguments to a result or a construction error,
together with its attached FuncInfo (the resolver interface of the spec:
resolve plus is_non_deterministic). -/
structure TargetDef where
  run : List Value → List (String × Value) → Except EvalError Value
  funcInfo : FuncInfo

/-- The evaluation environment: target resolution by name, mirroring
_resolve_target; an absent result models an unresolvable target. -/
structure EvalEnv where
  resolve : String → Option TargetDef

/-- The cache contents: an insertion-ordered association from configuration
nodes to instantiated nodes, looked up by the structural key equality.
Translation of the store dict of InMemoryCache (memory.py). -/
abbrev Cache := List (CNode × InstantiatedNode)

/-- Cache membership and read, translation of InMemoryCache lookup (a
Python dict keyed by the structural equality and its consistent hash). -/
def cacheFind : Cache → CNode → Option InstantiatedNode
  | [], _ => Option.none
  | (k, v) :: rest, key => if cnKeyEq k key then Option.some v else cacheFind rest key

/-- Cache write, translation of InMemoryCache item assignment: replaces the
value of an equal key in place (a Python dict keeps the first-inserted key
object), appends a fresh entry otherwise. -/
def cacheSet : Cache → CNode → InstantiatedNode → Cache
  | [], key, v => [(key, v)]
  | (k0, v0) :: rest, key, v =>
      if cnKeyEq k0 key then (k0, v) :: rest else (k0, v0) :: cacheSet rest key v

/-- Mutable evaluation state threaded through the recursion: the optional
cache (an absent cache models caching disabled) and an instrumentation log
of constructor invocations (target name and keyword arguments).  The log is
write-only and never influences control flow; it only serves to state how
often constructors run. -/
structure EvalState where
  cache : Option Cache
  callLog : List (String × List (String × Value))
deriving DecidableEq, Repr

/-- Conversion mode, mirroring hydra ConvertMode (none, partial, all). -/
inductive ConvertMode where
  | mNone
  | mPartial
  | mAll
deriving DecidableEq, Repr

/-- Reading of the _convert_ flag value from a mapping.  Strings naming no
mode behave as the none mode, because the engine only ever tests the
effective mode for equality with the partial and all modes (hydra
string-enum equality is case-insensitive, hence the lowercase match). -/
def readConvert (v : CNode) : ConvertMode :=
  match v with
  | CNode.scalar (Value.vstr s) =>
      if s.toLower = "partial" then ConvertMode.mPartial
      else if s.toLower = "all" then ConvertMode.mAll
      else ConvertMode.mNone
  | _ => ConvertMode.mNone

/-- Reading of the _recursive_ flag: inherited when absent, and a
non-boolean value raises a TypeError, mirroring hydra.py lines 160 to 165. -/
def readRecursive (entries : CEntries) (inherited : Bool) : Except EvalError Bool :=
  match entries.lookup "_recursive_" with
  | Option.none => Except.ok inherited
  | Option.some (CNode.scalar (Value.vbool b)) => Except.ok b
  | Option.some _ => Except.error (EvalError.typeError "_recursive_ flag must be a bool")

/-- Python truthiness of a runtime value, used for the _cache_result_ flag
read through node.get. -/
def Value.truthy : Value → Bool
  | Value.vnull => false
  | Value.vbool b => b
  | Value.vint n => decide (n ≠ 0)
  | Value.vstr s => decide (s ≠ "")
  | Value.vlist _ Values.nil => false
  | Value.vlist _ _ => true
  | Value.vdict _ VEntries.nil => false
  | Value.vdict _ _ => true
  | Value.vobj _ _ => true

/-- Python truthiness of a configuration value. -/
def CNode.truthy : CNode → Bool
  | CNode.scalar v => v.truthy
  | CNode.seq CNodes.nil => false
  | CNode.seq _ => true
  | CNode.mapping CEntries.nil => false
  | CNode.mapping _ => true

mutual

/-- A configuration subtree passed through unevaluated (the recursive flag
is false) is handed to the constructor as the container value it is. -/
def CNode.toValue : CNode → Value
  | CNode.scalar v => v
  | CNode.seq items => Value.vlist true items.toValue
  | CNode.mapping entries => Value.vdict true entries.toValue

/-- Value view of a node list. -/
def CNodes.toValue : CNodes → Values
  | CNodes.nil => Values.nil
  | CNodes.cons h t => Values.cons h.toValue t.toValue

/-- Value view of an entry list. -/
def CEntries.toValue : CEntries → VEntries
  | CEntries.nil => VEntries.nil
  | CEntries.cons k v rest => VEntries.cons k v.toValue rest.toValue

end

/-- Discrimination of OmegaConf containers among runtime values. -/
def isCfgContainer : Value → Bool
  | Value.vlist c _ => c
  | Value.vdict c _ => c
  | _ => false

mutual

/-- Model of OmegaConf.to_container: strip the container instrumentation
recursively, leaving scalars and opaque objects untouched. -/
def Value.toContainer : Value → Value
  | Value.vnull => Value.vnull
  | Value.vbool b => Value.vbool b
  | Value.vint n => Value.vint n
  | Value.vstr s => Value.vstr s
  | Value.vlist _ items => Value.vlist false items.toContainer
  | Value.vdict _ entries => Value.vdict false entries.toContainer
  | Value.vobj t fields => Value.vobj t fields

/-- Container conversion of a value list. -/
def Values.toContainer : Values → Values
  | Values.nil => Values.nil
  | Values.cons h t => Values.cons h.toContainer t.toContainer

/-- Container conversion of a value entry list. -/
def VEntries.toContainer : VEntries → VEntries
  | VEntries.nil => VEntries.nil
  | VEntries.cons k v t => VEntries.cons k v.toContainer t.toContainer

end

/-- Translation of _convert_node (hydra.py lines 133 to 141): convert
OmegaConf containers to plain containers when the mode is partial or all
(structured configs do not occur in the model, so the two behave alike). -/
def convertValue (v : Value) (convert : ConvertMode) : Value :=
  if isCfgContainer v then
    match convert with
    | ConvertMode.mAll => v.toContainer
    | ConvertMode.mPartial => v.toContainer
    | ConvertMode.mNone => v
  else v

/-- The reserved keys excluded from the argument set of a Call node
(hydra.py line 185). -/
def excludeKeys : List String :=
  ["_target_", "_convert_", "_recursive_", "_cache_result_", "_result_hash_"]

/-- Conversion of a standard value list to a value list. -/
def Values.ofList : List Value → Values
  | [] => Values.nil
  | h :: t => Values.cons h (Values.ofList t)

/-- The result-hash placeholder mapping built for a freshly computed
non-deterministic result (hydra.py lines 228 to 233); the digest string of
joblib.hash is modelled by the injective encoding of the value. -/
def resultHashPlaceholder (v : Value) : CNode :=
  CNode.mapping (CEntries.cons "_result_hash_"
    (CNode.scalar (Value.vint (Int.ofNat v.encode))) CEntries.nil)

/-- Conversion of a standard keyed value list to a value entry list. -/
def VEntries.ofList : List (String × Value) → VEntries
  | [] => VEntries.nil
  | (k, v) :: t => VEntries.cons k v (VEntries.ofList t)

deriving instance DecidableEq for Except

/-- The cache write step of a Call node after execution (hydra.py lines 236
to 246): when a cache is active and the combined cache_result is true, the
result is stored under cache_key; when additionally cache_key differs from
the original node (under the structural key equality, as for a Python dict
key), a second entry is stored under the original node whose metadata is
forced not_deterministic. -/
def cache_write_step (st : EvalState) (cache_key node : CNode)
    (result : InstantiatedNode) : EvalState :=
  match st.cache with
  | Option.none => st
  | Option.some c =>
      if result.info.cache_result then
        let c1 := cacheSet c cache_key result
        if cnKeyEq cache_key node then
          { st with cache := Option.some c1 }
        else
          { st with cache := Option.some (cacheSet c1 node
            { inst := result.inst,
              info := { result.info with not_deterministic := true } }) }
      else st

/-- The tail of the Call branch of instantiate_node after the arguments
have been evaluated (hydra.py lines 195 to 247): for a deterministic target
the combined metadata is computed before execution and its substitute, when
present, is tried as a secondary cache key; then the constructor runs, the
metadata is completed (building the result-hash placeholder substitute for
a non-deterministic target), the measured duration is recorded, and the
cache write step runs. -/
def finish_call (args : List Value) (node : CNode) (tname : String)
    (td : TargetDef) (target_info : InstantiatedNodeInfo)
    (kwargs : List (String × Value)) (infos : List (CKey × InstantiatedNodeInfo))
    (st1 : EvalState) : Except EvalError InstantiatedNode × EvalState :=
  let pre : Option InstantiatedNodeInfo :=
    if td.funcInfo.not_deterministic then Option.none
    else Option.some (InstantiatedNodeInfo.combine infos
      (Option.some node) (Option.some target_info) Option.none)
  let subHit : Option InstantiatedNode :=
    match pre with
    | Option.some ri =>
        match ri.deterministic_config, st1.cache with
        | Option.some dcfg, Option.some c => cacheFind c dcfg
        | _, _ => Option.none
    | Option.none => Option.none
  match subHit with
  | Option.some r => (Except.ok r, st1)
  | Option.none =>
      let cache_key : CNode :=
        match pre with
        | Option.some ri =>
            match ri.deterministic_config with
            | Option.some dcfg => dcfg
            | Option.none => node
        | Option.none => node
      let st2 := { st1 with callLog := st1.callLog ++ [(tname, kwargs)] }
      match td.run args kwargs with
      | Except.error e => (Except.error e, st2)
      | Except.ok result_instance =>
          let ri0 :=
            match pre with
            | Option.some ri => ri
            | Option.none =>
                InstantiatedNodeInfo.combine infos Option.none
                  (Option.some target_info)
                  (Option.some (resultHashPlaceholder result_instance))
          let result_info := { ri0 with time_target := Option.some 0 }
          let result : InstantiatedNode :=
            { inst := result_instance, info := result_info }
          (Except.ok result, cache_write_step st2 cache_key node result)

/-- The effective conversion mode of a mapping node: the _convert_ override
when present, the inherited mode otherwise (hydra.py lines 157 to 158). -/
def effective_convert (entries : CEntries) (convert : ConvertMode) : ConvertMode :=
  match entries.lookup "_convert_" with
  | Option.some v => readConvert v
  | Option.none => convert

/-- The own _cache_result_ flag of a Call node, read with Python truthiness
through node.get with default True (hydra.py line 182). -/
def read_cache_result_flag (entries : CEntries) : Bool :=
  match entries.lookup "_cache_result_" with
  | Option.none => true
  | Option.some v => v.truthy

/-- The positionally indexed metadata of evaluated sequence elements (the
enumerate loop building the infos dict of the list branch). -/
def enumInfos : List InstantiatedNode → Nat → List (CKey × InstantiatedNodeInfo)
  | [], _ => []
  | r :: rest, i => (CKey.idx i, r.info) :: enumInfos rest (i + 1)

mutual

/-- Translation of instantiate_node (hydra.py lines 144 to 279).  A scalar
leaf is returned unchanged with default metadata (this covers both the
Python None early return and the not-a-config early return).  A sequence
evaluates its elements and combines their metadata positionally.  A mapping
first reads the _convert_ and _recursive_ overrides; a Call mapping (one
carrying the _target_ key) then follows the caching evaluation algorithm,
and a plain mapping evaluates its entries and combines their metadata by
key.  The positional pass-through arguments are applied only at the node a
caller starts from; recursive calls pass none, as in the source. -/
def instantiate_node (env : EvalEnv) (args : List Value) (convert : ConvertMode)
    (recursive : Bool) (node : CNode) (st : EvalState) :
    Except EvalError InstantiatedNode × EvalState :=
  match node with
  | CNode.scalar v => (Except.ok { inst := v }, st)
  | CNode.seq items =>
      match instantiate_items env convert recursive items st with
      | (Except.error e, st1) => (Except.error e, st1)
      | (Except.ok rs, st1) =>
          let infos := enumInfos rs 0
          let info := InstantiatedNodeInfo.combine infos (Option.some node)
            Option.none Option.none
          let isCfg := match convert with
            | ConvertMode.mAll => false
            | ConvertMode.mPartial => false
            | ConvertMode.mNone => true
          let result := Value.vlist isCfg (Values.ofList (rs.map (fun r => r.inst)))
          (Except.ok { inst := result, info := info }, st1)
  | CNode.mapping entries =>
      let convert1 := effective_convert entries convert
      match readRecursive entries recursive with
      | Except.error e => (Except.error e, st)
      | Except.ok recursive1 =>
          if entries.hasKey "_target_" then
            match (match st.cache with
                   | Option.none => Option.none
                   | Option.some c => cacheFind c node) with
            | Option.some r => (Except.ok r, st)
            | Option.none =>
                match entries.lookup "_target_" with
                | Option.some (CNode.scalar (Value.vstr tname)) =>
                    match env.resolve tname with
                    | Option.none => (Except.error (EvalError.unresolvedTarget tname), st)
                    | Option.some td =>
                        let target_info : InstantiatedNodeInfo :=
                          { not_deterministic := td.funcInfo.not_deterministic,
                            cache_result := read_cache_result_flag entries }
                        match instantiate_kwargs env convert1 recursive1 entries st with
                        | (Except.error e, st1) => (Except.error e, st1)
                        | (Except.ok (kwargs, infos), st1) =>
                            finish_call args node tname td target_info kwargs infos st1
                | _ => (Except.error (EvalError.unresolvedTarget "invalid target"), st)
          else
            match instantiate_entries env convert1 recursive1 entries st with
            | (Except.error e, st1) => (Except.error e, st1)
            | (Except.ok rs, st1) =>
                let infos := rs.map (fun p => (CKey.key p.fst, p.snd.info))
                let info := InstantiatedNodeInfo.combine infos (Option.some node)
                  Option.none Option.none
                let isCfg := match convert1 with
                  | ConvertMode.mAll => false
                  | ConvertMode.mPartial => false
                  | ConvertMode.mNone => true
                let result := Value.vdict isCfg
                  (VEntries.ofList (rs.map (fun p => (p.fst, p.snd.inst))))
                (Except.ok { inst := result, info := info }, st1)

/-- Evaluation of sequence elements in order, threading the state
(hydra.py lines 168 to 172). -/
def instantiate_items (env : EvalEnv) (convert : ConvertMode) (recursive : Bool)
    (items : CNodes) (st : EvalState) :
    Except EvalError (List InstantiatedNode) × EvalState :=
  match items with
  | CNodes.nil => (Except.ok [], st)
  | CNodes.cons h t =>
      match instantiate_node env [] convert recursive h st with
      | (Except.error e, st1) => (Except.error e, st1)
      | (Except.ok r, st1) =>
          match instantiate_items env convert recursive t st1 with
          | (Except.error e, st2) => (Except.error e, st2)
          | (Except.ok rs, st2) => (Except.ok (r :: rs), st2)

/-- Evaluation of the entries of a plain mapping in order, threading the
state (hydra.py lines 250 to 279). -/
def instantiate_entries (env : EvalEnv) (convert : ConvertMode) (recursive : Bool)
    (entries : CEntries) (st : EvalState) :
    Except EvalError (List (String × InstantiatedNode)) × EvalState :=
  match entries with
  | CEntries.nil => (Except.ok [], st)
  | CEntries.cons k v rest =>
      match instantiate_node env [] convert recursive v st with
      | (Except.error e, st1) => (Except.error e, st1)
      | (Except.ok r, st1) =>
          match instantiate_entries env convert recursive rest st1 with
          | (Except.error e, st2) => (Except.error e, st2)
          | (Except.ok rs, st2) => (Except.ok ((k, r) :: rs), st2)

/-- Evaluation of the argument entries of a Call node (hydra.py lines 183
to 193): reserved keys are skipped; with the recursive flag set each value
is evaluated and its metadata collected, otherwise the raw subtree is
passed through; in both cases the conversion mode is applied to the
resulting argument value. -/
def instantiate_kwargs (env : EvalEnv) (convert : ConvertMode) (recursive : Bool)
    (entries : CEntries) (st : EvalState) :
    Except EvalError (List (String × Value) × List (CKey × InstantiatedNodeInfo)) × EvalState :=
  match entries with
  | CEntries.nil => (Except.ok ([], []), st)
  | CEntries.cons k v rest =>
      if excludeKeys.contains k then instantiate_kwargs env convert recursive rest st
      else if recursive then
        match instantiate_node env [] convert recursive v st with
        | (Except.error e, st1) => (Except.error e, st1)
        | (Except.ok r, st1) =>
            match instantiate_kwargs env convert recursive rest st1 with
            | (Except.error e, st2) => (Except.error e, st2)
            | (Except.ok (kws, infos), st2) =>
                (Except.ok ((k, convertValue r.inst convert) :: kws,
                            (CKey.key k, r.info) :: infos), st2)
      else
        match instantiate_kwargs env convert recursive rest st with
        | (Except.error e, st1) => (Except.error e, st1)
        | (Except.ok (kws, infos), st1) =>
            (Except.ok ((k, convertValue v.toValue convert) :: kws, infos), st1)

end

theorem CEntries.toList_ofList : ∀ l, CEntries.toList (CEntries.ofList l) = l
  | [] => rfl
  | (k, v) :: rest => by
      simp only [CEntries.ofList, CEntries.toList]
      exact congrArg _ (CEntries.toList_ofList rest)

theorem CNodes.toList_ofList_items : ∀ l, CNodes.toList (CNodes.ofList l) = l
  | [] => rfl
  | h :: rest => by
      simp only [CNodes.ofList, CNodes.toList]
      exact congrArg _ (CNodes.toList_ofList_items rest)

/-- Length of a node list. -/
def CNodes.length : CNodes → Nat
  | CNodes.nil => 0
  | CNodes.cons _ t => t.length + 1

theorem CEntries.sz_eq_sum : ∀ es : CEntries,
    es.sz = (es.toList.map (fun e => e.snd.sz)).sum
  | CEntries.nil => rfl
  | CEntries.cons k v rest => by
      simp only [CEntries.sz, CEntries.toList, List.map_cons, List.sum_cons]
      exact congrArg _ (CEntries.sz_eq_sum rest)

mutual

theorem CNode.sz_norm : ∀ c : CNode, c.norm.sz = c.sz
  | CNode.scalar v => rfl
  | CNode.seq items => by
      simp only [CNode.norm, CNode.sz]
      exact congrArg _ (CNodes.sz_norm_items items)
  | CNode.mapping entries => by
      simp only [CNode.norm, CNode.sz]
      have hperm : (List.insertionSort entryLE (CEntries.toList entries.norm)).Perm
          (CEntries.toList entries.norm) :=
        List.perm_insertionSort entryLE (CEntries.toList entries.norm)
      have hsum : ((List.insertionSort entryLE (CEntries.toList entries.norm)).map
            (fun e => e.snd.sz)).sum =
          ((CEntries.toList entries.norm).map (fun e => e.snd.sz)).sum :=
        (hperm.map (fun e => e.snd.sz)).sum_eq
      rw [CEntries.sz_eq_sum, CEntries.toList_ofList, hsum, ← CEntries.sz_eq_sum]
      exact congrArg _ (CEntries.sz_norm_entries entries)

theorem CNodes.sz_norm_items : ∀ items : CNodes, items.norm.sz = items.sz
  | CNodes.nil => rfl
  | CNodes.cons h t => by
      simp only [CNodes.norm, CNodes.sz]
      rw [CNode.sz_norm h, CNodes.sz_norm_items t]

theorem CEntries.sz_norm_entries : ∀ es : CEntries, es.norm.sz = es.sz
  | CEntries.nil => rfl
  | CEntries.cons k v rest => by
      simp only [CEntries.norm, CEntries.sz]
      rw [CNode.sz_norm v, CEntries.sz_norm_entries rest]

end

mutual

theorem CNode.sz_pos : ∀ c : CNode, 1 ≤ c.sz
  | CNode.scalar _ => le_refl 1
  | CNode.seq _ => by simp only [CNode.sz]; omega
  | CNode.mapping _ => by simp only [CNode.sz]; omega

end

mutual

/-- Presence of the reserved _result_hash_ key anywhere in a tree.  Every
deterministic substitute built by the engine contains it, and no
configuration written by a user within the documented contract does; this
separates substitute keys from original configurations. -/
def CNode.hasRH : CNode → Bool
  | CNode.scalar _ => false
  | CNode.seq items => items.hasRH
  | CNode.mapping entries => entries.hasRH

/-- Result-hash key presence in a node list. -/
def CNodes.hasRH : CNodes → Bool
  | CNodes.nil => false
  | CNodes.cons h t => h.hasRH || t.hasRH

/-- Result-hash key presence in an entry list. -/
def CEntries.hasRH : CEntries → Bool
  | CEntries.nil => false
  | CEntries.cons k v rest => decide (k = "_result_hash_") || v.hasRH || rest.hasRH

end

theorem CEntries.hasRH_eq_any : ∀ es : CEntries,
    es.hasRH = es.toList.any (fun e => decide (e.fst = "_result_hash_") || e.snd.hasRH)
  | CEntries.nil => rfl
  | CEntries.cons k v rest => by
      simp only [CEntries.hasRH, CEntries.toList, List.any_cons]
      rw [CEntries.hasRH_eq_any rest]

theorem perm_any_eq {α : Type} {l1 l2 : List α} (h : l1.Perm l2) (p : α → Bool) :
    l1.any p = l2.any p := by
  induction h with
  | nil => rfl
  | cons x h ih => simp only [List.any_cons, ih]
  | swap x y l => cases hp : p x <;> cases hq : p y <;> simp [List.any_cons, hp, hq]
  | trans h1 h2 ih1 ih2 => rw [ih1, ih2]

mutual

theorem CNode.hasRH_norm : ∀ c : CNode, c.norm.hasRH = c.hasRH
  | CNode.scalar v => rfl
  | CNode.seq items => by
      simp only [CNode.norm, CNode.hasRH]
      exact CNodes.hasRH_norm_items items
  | CNode.mapping entries => by
      simp only [CNode.norm, CNode.hasRH]
      have hperm : (List.insertionSort entryLE (CEntries.toList entries.norm)).Perm
          (CEntries.toList entries.norm) :=
        List.perm_insertionSort entryLE (CEntries.toList entries.norm)
      rw [CEntries.hasRH_eq_any, CEntries.toList_ofList, perm_any_eq hperm,
        ← CEntries.hasRH_eq_any]
      exact CEntries.hasRH_norm_entries entries

theorem CNodes.hasRH_norm_items : ∀ items : CNodes, items.norm.hasRH = items.hasRH
  | CNodes.nil => rfl
  | CNodes.cons h t => by
      simp only [CNodes.norm, CNodes.hasRH]
      rw [CNode.hasRH_norm h, CNodes.hasRH_norm_items t]

theorem CEntries.hasRH_norm_entries : ∀ es : CEntries, es.norm.hasRH = es.hasRH
  | CEntries.nil => rfl
  | CEntries.cons k v rest => by
      simp only [CEntries.norm, CEntries.hasRH]
      rw [CNode.hasRH_norm v, CEntries.hasRH_norm_entries rest]

end

theorem cnKeyEq_iff {a b : CNode} : cnKeyEq a b = true ↔ a.norm = b.norm := by
  simp [cnKeyEq]

theorem cnKeyEq_refl (a : CNode) : cnKeyEq a a = true := by simp [cnKeyEq]

theorem cnKeyEq_symm {a b : CNode} (h : cnKeyEq a b = true) : cnKeyEq b a = true := by
  rw [cnKeyEq_iff] at h ⊢; exact h.symm

theorem cnKeyEq_trans {a b c : CNode} (h : cnKeyEq a b = true)
    (h2 : cnKeyEq b c = true) : cnKeyEq a c = true := by
  rw [cnKeyEq_iff] at h h2 ⊢; exact h.trans h2

theorem cnKeyEq_sz {a b : CNode} (h : cnKeyEq a b = true) : a.sz = b.sz := by
  rw [cnKeyEq_iff] at h
  rw [← CNode.sz_norm a, ← CNode.sz_norm b, h]

theorem cnKeyEq_hasRH {a b : CNode} (h : cnKeyEq a b = true) : a.hasRH = b.hasRH := by
  rw [cnKeyEq_iff] at h
  rw [← CNode.hasRH_norm a, ← CNode.hasRH_norm b, h]

theorem cacheFind_cacheSet_eq : ∀ (c : Cache) (k1 k2 : CNode) (v : InstantiatedNode),
    cnKeyEq k1 k2 = true → cacheFind (cacheSet c k1 v) k2 = Option.some v
  | [], k1, k2, v, h => by simp [cacheSet, cacheFind, h]
  | (k0, v0) :: rest, k1, k2, v, h => by
      simp only [cacheSet]
      by_cases h0 : cnKeyEq k0 k1 = true
      · simp only [h0, if_true]
        simp [cacheFind, cnKeyEq_trans h0 h]
      · simp only [h0, if_false]
        have h02 : ¬ cnKeyEq k0 k2 = true := by
          intro hc
          exact h0 (cnKeyEq_trans hc (cnKeyEq_symm h))
        simp only [cacheFind, h02, if_false]
        exact cacheFind_cacheSet_eq rest k1 k2 v h

theorem cacheFind_cacheSet_ne : ∀ (c : Cache) (k1 k2 : CNode) (v : InstantiatedNode),
    ¬ cnKeyEq k1 k2 = true → cacheFind (cacheSet c k1 v) k2 = cacheFind c k2
  | [], k1, k2, v, h => by
      have h12 : ¬ cnKeyEq k1 k2 = true := h
      simp [cacheSet, cacheFind, h12]
  | (k0, v0) :: rest, k1, k2, v, h => by
      simp only [cacheSet]
      by_cases h0 : cnKeyEq k0 k1 = true
      · have h02 : ¬ cnKeyEq k0 k2 = true := by
          intro hc
          exact h (cnKeyEq_trans (cnKeyEq_symm h0) hc)
        simp only [h0, if_true]
        simp [cacheFind, h02]
      · simp only [h0, if_false, cacheFind]
        by_cases h02 : cnKeyEq k0 k2 = true
        · simp [h02]
        · simp only [h02, if_false]
          exact cacheFind_cacheSet_ne rest k1 k2 v h

theorem combine_not_deterministic (infos : List (CKey × InstantiatedNodeInfo))
    (pc : Option CNode) (ti : Option InstantiatedNodeInfo) (dc0 : Option CNode) :
    (InstantiatedNodeInfo.combine infos pc ti dc0).not_deterministic =
      (match ti with
       | Option.some t => t.not_deterministic
       | Option.none => false) := rfl

theorem all_map_snd (infos : List (CKey × InstantiatedNodeInfo)) :
    (infos.map Prod.snd).all (fun i => i.cache_result) =
      infos.all (fun p => p.snd.cache_result) := by
  induction infos with
  | nil => rfl
  | cons p rest ih => simp only [List.map_cons, List.all_cons, ih]

theorem combine_cache_result (infos : List (CKey × InstantiatedNodeInfo))
    (pc : Option CNode) (ti : Option InstantiatedNodeInfo) (dc0 : Option CNode) :
    (InstantiatedNodeInfo.combine infos pc ti dc0).cache_result =
      ((match ti with
        | Option.some t => t.cache_result
        | Option.none => true) &&
       infos.all (fun p => p.snd.cache_result)) := by
  cases ti with
  | none =>
      simp only [InstantiatedNodeInfo.combine, all_map_snd, Bool.true_and]
  | some t =>
      simp only [InstantiatedNodeInfo.combine, List.all_append, List.all_cons,
        List.all_nil, Bool.and_true, all_map_snd]
      rw [Bool.and_comm]

theorem combine_time_target (infos : List (CKey × InstantiatedNodeInfo))
    (pc : Option CNode) (ti : Option InstantiatedNodeInfo) (dc0 : Option CNode) :
    (InstantiatedNodeInfo.combine infos pc ti dc0).time_target = Option.none := rfl

theorem combine_dc_of_some (infos : List (CKey × InstantiatedNodeInfo))
    (pc : Option CNode) (ti : Option InstantiatedNodeInfo) (d : CNode) :
    (InstantiatedNodeInfo.combine infos pc ti (Option.some d)).deterministic_config =
      Option.some d := rfl

theorem combine_dc_of_none (infos : List (CKey × InstantiatedNodeInfo))
    (pc : Option CNode) (ti : Option InstantiatedNodeInfo) :
    (InstantiatedNodeInfo.combine infos pc ti Option.none).deterministic_config =
      infos.foldl (combine_dc_step pc) Option.none := rfl

theorem foldl_dc_none : ∀ (infos : List (CKey × InstantiatedNodeInfo)) (pc : Option CNode)
    (acc : Option CNode),
    (∀ p ∈ infos, p.snd.deterministic_config = Option.none) →
    infos.foldl (combine_dc_step pc) acc = acc
  | [], _, _, _ => rfl
  | p :: rest, pc, acc, h => by
      simp only [List.foldl_cons]
      have hp : p.snd.deterministic_config = Option.none := h p (List.mem_cons_self p rest)
      have hstep : combine_dc_step pc acc p = acc := by
        simp [combine_dc_step, hp]
      rw [hstep]
      exact foldl_dc_none rest pc acc (fun q hq => h q (List.mem_cons_of_mem p hq))

/-- The dc result of combine is absent when no child carries a substitute. -/
theorem combine_dc_none_of_children (infos : List (CKey × InstantiatedNodeInfo))
    (pc : Option CNode) (ti : Option InstantiatedNodeInfo)
    (h : ∀ p ∈ infos, p.snd.deterministic_config = Option.none) :
    (InstantiatedNodeInfo.combine infos pc ti Option.none).deterministic_config =
      Option.none := by
  rw [combine_dc_of_none]
  exact foldl_dc_none infos pc Option.none h

/-- Fit of a child index to a parent shape: a position must be in range for
a sequence, a key fits any mapping. -/
def keyFits : CKey → CNode → Prop
  | CKey.idx i, CNode.seq items => i < items.length
  | CKey.key _, CNode.mapping _ => True
  | _, _ => False

/-- Shape agreement of two configuration trees: both are sequences of the
same length or both are mappings; setChild preserves it. -/
def similarShape : CNode → CNode → Prop
  | CNode.seq a, CNode.seq b => a.length = b.length
  | CNode.mapping _, CNode.mapping _ => True
  | _, _ => False

theorem CNodes.length_set : ∀ (items : CNodes) (i : Nat) (d : CNode),
    (items.set i d).length = items.length
  | CNodes.nil, _, _ => rfl
  | CNodes.cons _ t, 0, d => rfl
  | CNodes.cons h t, Nat.succ i, d => by
      simp only [CNodes.set, CNodes.length]
      rw [CNodes.length_set t i d]

theorem CNodes.hasRH_set : ∀ (items : CNodes) (i : Nat) (d : CNode),
    i < items.length → d.hasRH = true → (items.set i d).hasRH = true
  | CNodes.nil, i, d, h, _ => by simp [CNodes.length] at h
  | CNodes.cons x t, 0, d, _, hd => by simp [CNodes.set, CNodes.hasRH, hd]
  | CNodes.cons x t, Nat.succ i, d, h, hd => by
      simp only [CNodes.set, CNodes.hasRH]
      have : i < t.length := by simp only [CNodes.length] at h; omega
      rw [CNodes.hasRH_set t i d this hd]
      simp

theorem CEntries.hasRH_set_entries : ∀ (es : CEntries) (s : String) (d : CNode),
    d.hasRH = true → (es.set s d).hasRH = true
  | CEntries.nil, s, d, hd => by simp [CEntries.set, CEntries.hasRH, hd]
  | CEntries.cons k v rest, s, d, hd => by
      simp only [CEntries.set]
      by_cases hks : k = s
      · simp [hks, CEntries.hasRH, hd]
      · simp only [hks, if_false, CEntries.hasRH]
        rw [CEntries.hasRH_set_entries rest s d hd]
        simp

theorem hasRH_setChild {cur : CNode} {k : CKey} {d : CNode}
    (hfit : keyFits k cur) (hd : d.hasRH = true) : (setChild cur k d).hasRH = true := by
  cases cur <;> cases k <;> simp only [keyFits] at hfit
  · rename_i items i
    simp only [setChild, CNode.hasRH]
    exact CNodes.hasRH_set items i d hfit hd
  · rename_i entries s
    simp only [setChild, CNode.hasRH]
    exact CEntries.hasRH_set_entries entries s d hd

theorem similar_setChild {cur : CNode} {k : CKey} {d : CNode}
    (hfit : keyFits k cur) : similarShape (setChild cur k d) cur := by
  cases cur <;> cases k <;> simp only [keyFits] at hfit
  · rename_i items i
    simp only [setChild, similarShape]
    exact CNodes.length_set items i d
  · rename_i entries s
    simp only [setChild, similarShape]

theorem keyFits_of_similar {cur pc : CNode} {k : CKey}
    (hsim : similarShape cur pc) (hfit : keyFits k pc) : keyFits k cur := by
  cases cur <;> cases pc <;> simp only [similarShape] at hsim <;>
    cases k <;> simp only [keyFits] at hfit ⊢ <;> try exact hfit
  omega

theorem similar_trans {a b c : CNode} (h : similarShape a b) (h2 : similarShape b c) :
    similarShape a c := by
  cases a <;> cases b <;> cases c <;> simp only [similarShape] at h h2 ⊢ <;> omega

/-- RH-soundness of the substitute fold of combine: if every child
substitute contains the result-hash marker and every child index fits the
parent, so does every tree it can return. -/
theorem foldl_dc_RH : ∀ (infos : List (CKey × InstantiatedNodeInfo)) (pc : CNode)
    (acc : Option CNode),
    (∀ p ∈ infos, ∀ d, p.snd.deterministic_config = Option.some d → d.hasRH = true) →
    (∀ p ∈ infos, keyFits p.fst pc) →
    (∀ a, acc = Option.some a → a.hasRH = true ∧ similarShape a pc) →
    ∀ d, infos.foldl (combine_dc_step (Option.some pc)) acc = Option.some d →
      d.hasRH = true ∧ similarShape d pc
  | [], pc, acc, _, _, hacc, d, hfold => hacc d hfold
  | p :: rest, pc, acc, hRH, hfit, hacc, d, hfold => by
      simp only [List.foldl_cons] at hfold
      have hpfit : keyFits p.fst pc := hfit p (List.mem_cons_self p rest)
      refine foldl_dc_RH rest pc (combine_dc_step (Option.some pc) acc p)
        (fun q hq => hRH q (List.mem_cons_of_mem p hq))
        (fun q hq => hfit q (List.mem_cons_of_mem p hq))
        ?_ d hfold
      intro a ha
      simp only [combine_dc_step] at ha
      rcases hdc : p.snd.deterministic_config with - | childDC
      · rw [hdc] at ha
        exact hacc a ha
      · rw [hdc] at ha
        have hchild : childDC.hasRH = true :=
          hRH p (List.mem_cons_self p rest) childDC hdc
        rcases hc : acc with - | cur
        · rw [hc] at ha
          simp only [Option.some.injEq] at ha
          subst ha
          exact ⟨hasRH_setChild hpfit hchild, similar_setChild hpfit⟩
        · rw [hc] at ha
          simp only [Option.some.injEq] at ha
          subst ha
          have hcur := hacc cur hc
          have hfit2 : keyFits p.fst cur := keyFits_of_similar hcur.2 hpfit
          exact ⟨hasRH_setChild hfit2 hchild,
            similar_trans (similar_setChild hfit2) hcur.2⟩

/-- RH-soundness of the combined metadata. -/
theorem combine_dc_RH (infos : List (CKey × InstantiatedNodeInfo)) (pc : CNode)
    (ti : Option InstantiatedNodeInfo)
    (hRH : ∀ p ∈ infos, ∀ d, p.snd.deterministic_config = Option.some d → d.hasRH = true)
    (hfit : ∀ p ∈ infos, keyFits p.fst pc) :
    ∀ d, (InstantiatedNodeInfo.combine infos (Option.some pc) ti
        Option.none).deterministic_config = Option.some d → d.hasRH = true := by
  intro d hd
  rw [combine_dc_of_none] at hd
  exact (foldl_dc_RH infos pc Option.none hRH hfit (by intro a ha; cases ha) d hd).1

theorem hasRH_placeholder (v : Value) : (resultHashPlaceholder v).hasRH = true := rfl

theorem cacheFind_mem : ∀ (c : Cache) (k : CNode) (v : InstantiatedNode),
    cacheFind c k = Option.some v → ∃ k0, (k0, v) ∈ c
  | [], k, v, h => by simp [cacheFind] at h
  | (k0, v0) :: rest, k, v, h => by
      simp only [cacheFind] at h
      by_cases h0 : cnKeyEq k0 k = true
      · rw [if_pos h0] at h
        simp only [Option.some.injEq] at h
        exact ⟨k0, by rw [h]; exact List.mem_cons_self _ _⟩
      · rw [if_neg h0] at h
        obtain ⟨k1, hk1⟩ := cacheFind_mem rest k v h
        exact ⟨k1, List.mem_cons_of_mem _ hk1⟩

theorem cacheSet_mem : ∀ (c : Cache) (k : CNode) (v : InstantiatedNode) (p : CNode × InstantiatedNode),
    p ∈ cacheSet c k v → p.snd = v ∨ p ∈ c
  | [], k, v, p, h => by
      simp only [cacheSet, List.mem_singleton] at h
      left; rw [h]
  | (k0, v0) :: rest, k, v, p, h => by
      simp only [cacheSet] at h
      by_cases h0 : cnKeyEq k0 k = true
      · rw [if_pos h0] at h
        rcases List.mem_cons.mp h with h1 | h1
        · left; rw [h1]
        · right; exact List.mem_cons_of_mem _ h1
      · rw [if_neg h0] at h
        rcases List.mem_cons.mp h with h1 | h1
        · right; rw [h1]; exact List.mem_cons_self _ _
        · rcases cacheSet_mem rest k v p h1 with h2 | h2
          · left; exact h2
          · right; exact List.mem_cons_of_mem _ h2

/-- The cache contents of a state (empty when caching is disabled). -/
def cacheList (st : EvalState) : Cache :=
  match st.cache with
  | Option.none => []
  | Option.some c => c

/-- Lookup through the optional cache of a state. -/
def findSt (st : EvalState) (k : CNode) : Option InstantiatedNode :=
  match st.cache with
  | Option.none => Option.none
  | Option.some c => cacheFind c k

/-- RH-soundness of a state: every substitute stored in cached metadata
carries the result-hash marker. -/
def cacheRH (st : EvalState) : Prop :=
  ∀ p ∈ cacheList st, ∀ d, p.snd.info.deterministic_config = Option.some d →
    d.hasRH = true

theorem findSt_congr {st st' : EvalState} (h : st'.cache = st.cache) (k : CNode) :
    findSt st' k = findSt st k := by
  simp only [findSt, h]

theorem cacheRH_congr {st st' : EvalState} (h : st'.cache = st.cache)
    (hRH : cacheRH st) : cacheRH st' := by
  simp only [cacheRH, cacheList, h]
  exact fun p hp => hRH p (by simpa only [cacheRH, cacheList] using hp)

theorem cache_write_step_callLog (st : EvalState) (ck node : CNode)
    (result : InstantiatedNode) :
    (cache_write_step st ck node result).callLog = st.callLog := by
  simp only [cache_write_step]
  rcases st.cache with - | c
  · rfl
  · by_cases hcr : result.info.cache_result = true
    · simp only [hcr, if_true]
      by_cases hk : cnKeyEq ck node = true <;> simp [hk]
    · simp only [Bool.not_eq_true] at hcr
      simp [hcr]

theorem cache_write_step_none (st : EvalState) (ck node : CNode)
    (result : InstantiatedNode) (h : st.cache = Option.none) :
    cache_write_step st ck node result = st := by
  simp [cache_write_step, h]

theorem cache_write_step_skip (st : EvalState) (ck node : CNode)
    (result : InstantiatedNode) (h : result.info.cache_result = false) :
    cache_write_step st ck node result = st := by
  simp only [cache_write_step, h]
  rcases st.cache with - | c <;> simp

theorem cache_write_step_find_other (st : EvalState) (ck node : CNode)
    (result : InstantiatedNode) (k : CNode)
    (h1 : ¬ cnKeyEq ck k = true) (h2 : ¬ cnKeyEq node k = true) :
    findSt (cache_write_step st ck node result) k = findSt st k := by
  simp only [cache_write_step]
  rcases hc : st.cache with - | c
  · rfl
  · by_cases hcr : result.info.cache_result = true
    · simp only [hcr, if_true]
      by_cases hk : cnKeyEq ck node = true
      · rw [if_pos hk]
        simp only [findSt, hc]
        exact cacheFind_cacheSet_ne c ck k result h1
      · rw [if_neg hk]
        simp only [findSt, hc]
        rw [cacheFind_cacheSet_ne _ node k _ h2]
        exact cacheFind_cacheSet_ne c ck k result h1
    · simp only [Bool.not_eq_true] at hcr
      simp [hcr]

theorem cache_write_step_RH (st : EvalState) (ck node : CNode)
    (result : InstantiatedNode) (hRH : cacheRH st)
    (hres : ∀ d, result.info.deterministic_config = Option.some d → d.hasRH = true) :
    cacheRH (cache_write_step st ck node result) := by
  simp only [cache_write_step]
  rcases hc : st.cache with - | c
  · simpa [hc] using hRH
  · have hRHc : ∀ p ∈ c, ∀ d, p.snd.info.deterministic_config = Option.some d →
        d.hasRH = true := by
      intro p hp
      exact hRH p (by simp [cacheList, hc, hp])
    by_cases hcr : result.info.cache_result = true
    · simp only [hcr, if_true]
      by_cases hk : cnKeyEq ck node = true
      · simp only [hk, if_true]
        intro p hp d hd
        simp only [cacheList] at hp
        rcases cacheSet_mem c ck result p hp with h | h
        · rw [h] at hd; exact hres d hd
        · exact hRHc p h d hd
      · simp only [hk, if_false]
        intro p hp d hd
        simp only [cacheList] at hp
        rcases cacheSet_mem _ node _ p hp with h | h
        · rw [h] at hd
          exact hres d hd
        · rcases cacheSet_mem c ck result p h with h3 | h3
          · rw [h3] at hd; exact hres d hd
          · exact hRHc p h3 d hd
    · simp only [Bool.not_eq_true] at hcr
      simpa [hcr, hc] using hRH

theorem cnKeyEq_false_of_hasRH {a b : CNode} (h : a.hasRH = true)
    (h2 : b.hasRH = false) : ¬ cnKeyEq a b = true := by
  intro hc
  rw [cnKeyEq_hasRH hc] at h
  rw [h] at h2
  cases h2

/-- Path equation: a non-deterministic target that runs successfully builds
the placeholder substitute after execution and performs the write step with
the original node as cache key. -/
theorem finish_call_eq_nd_ok {args : List Value} {node : CNode} {tname : String}
    {td : TargetDef} {target_info : InstantiatedNodeInfo}
    {kwargs : List (String × Value)} {infos : List (CKey × InstantiatedNodeInfo)}
    {st1 : EvalState} {v : Value}
    (hnd : td.funcInfo.not_deterministic = true)
    (hrun : td.run args kwargs = Except.ok v) :
    finish_call args node tname td target_info kwargs infos st1 =
      (let st2 : EvalState := { st1 with callLog := st1.callLog ++ [(tname, kwargs)] }
       let result : InstantiatedNode :=
         { inst := v,
           info := { InstantiatedNodeInfo.combine infos Option.none
             (Option.some target_info) (Option.some (resultHashPlaceholder v)) with
               time_target := Option.some 0 } }
       (Except.ok result, cache_write_step st2 node node result)) := by
  simp only [finish_call, hnd, if_true, hrun]

/-- Path equation: a non-deterministic target whose constructor raises
propagates the error with only the invocation logged. -/
theorem finish_call_eq_nd_err {args : List Value} {node : CNode} {tname : String}
    {td : TargetDef} {target_info : InstantiatedNodeInfo}
    {kwargs : List (String × Value)} {infos : List (CKey × InstantiatedNodeInfo)}
    {st1 : EvalState} {e : EvalError}
    (hnd : td.funcInfo.not_deterministic = true)
    (hrun : td.run args kwargs = Except.error e) :
    finish_call args node tname td target_info kwargs infos st1 =
      (Except.error e, { st1 with callLog := st1.callLog ++ [(tname, kwargs)] }) := by
  simp only [finish_call, hnd, if_true, hrun]

/-- Path equation: a deterministic target without a substitute runs and
performs the write step with the original node as cache key. -/
theorem finish_call_eq_det_nodc_ok {args : List Value} {node : CNode} {tname : String}
    {td : TargetDef} {target_info : InstantiatedNodeInfo}
    {kwargs : List (String × Value)} {infos : List (CKey × InstantiatedNodeInfo)}
    {st1 : EvalState} {v : Value}
    (hnd : td.funcInfo.not_deterministic = false)
    (hdc : (InstantiatedNodeInfo.combine infos (Option.some node)
      (Option.some target_info) Option.none).deterministic_config = Option.none)
    (hrun : td.run args kwargs = Except.ok v) :
    finish_call args node tname td target_info kwargs infos st1 =
      (let st2 : EvalState := { st1 with callLog := st1.callLog ++ [(tname, kwargs)] }
       let result : InstantiatedNode :=
         { inst := v,
           info := { InstantiatedNodeInfo.combine infos (Option.some node)
             (Option.some target_info) Option.none with
               time_target := Option.some 0 } }
       (Except.ok result, cache_write_step st2 node node result)) := by
  simp only [finish_call, hnd, Bool.false_eq_true, if_false, hdc, hrun]

/-- Path equation: a deterministic target without a substitute whose
constructor raises propagates the error. -/
theorem finish_call_eq_det_nodc_err {args : List Value} {node : CNode} {tname : String}
    {td : TargetDef} {target_info : InstantiatedNodeInfo}
    {kwargs : List (String × Value)} {infos : List (CKey × InstantiatedNodeInfo)}
    {st1 : EvalState} {e : EvalError}
    (hnd : td.funcInfo.not_deterministic = false)
    (hdc : (InstantiatedNodeInfo.combine infos (Option.some node)
      (Option.some target_info) Option.none).deterministic_config = Option.none)
    (hrun : td.run args kwargs = Except.error e) :
    finish_call args node tname td target_info kwargs infos st1 =
      (Except.error e, { st1 with callLog := st1.callLog ++ [(tname, kwargs)] }) := by
  simp only [finish_call, hnd, Bool.false_eq_true, if_false, hdc, hrun]

/-- Path equation: a deterministic target whose substitute is already
cached returns the cached entry without running the constructor. -/
theorem finish_call_eq_det_subhit {args : List Value} {node : CNode} {tname : String}
    {td : TargetDef} {target_info : InstantiatedNodeInfo}
    {kwargs : List (String × Value)} {infos : List (CKey × InstantiatedNodeInfo)}
    {st1 : EvalState} {dcfg : CNode} {r : InstantiatedNode}
    (hnd : td.funcInfo.not_deterministic = false)
    (hdc : (InstantiatedNodeInfo.combine infos (Option.some node)
      (Option.some target_info) Option.none).deterministic_config = Option.some dcfg)
    (hhit : findSt st1 dcfg = Option.some r) :
    finish_call args node tname td target_info kwargs infos st1 = (Except.ok r, st1) := by
  simp only [finish_call, hnd, Bool.false_eq_true, if_false, hdc]
  rcases hc : st1.cache with - | c
  · simp only [findSt, hc] at hhit
    exact Option.noConfusion hhit
  · simp only [findSt, hc] at hhit
    simp only [hc, hhit]

/-- Path equation: a deterministic target whose substitute misses the cache
runs and performs the write step with the substitute as cache key. -/
theorem finish_call_eq_det_submiss_ok {args : List Value} {node : CNode} {tname : String}
    {td : TargetDef} {target_info : InstantiatedNodeInfo}
    {kwargs : List (String × Value)} {infos : List (CKey × InstantiatedNodeInfo)}
    {st1 : EvalState} {dcfg : CNode} {v : Value}
    (hnd : td.funcInfo.not_deterministic = false)
    (hdc : (InstantiatedNodeInfo.combine infos (Option.some node)
      (Option.some target_info) Option.none).deterministic_config = Option.some dcfg)
    (hmiss : findSt st1 dcfg = Option.none)
    (hrun : td.run args kwargs = Except.ok v) :
    finish_call args node tname td target_info kwargs infos st1 =
      (let st2 : EvalState := { st1 with callLog := st1.callLog ++ [(tname, kwargs)] }
       let result : InstantiatedNode :=
         { inst := v,
           info := { InstantiatedNodeInfo.combine infos (Option.some node)
             (Option.some target_info) Option.none with
               time_target := Option.some 0 } }
       (Except.ok result, cache_write_step st2 dcfg node result)) := by
  simp only [finish_call, hnd, Bool.false_eq_true, if_false, hdc]
  rcases hc : st1.cache with - | c
  · simp only [hc, hrun]
  · simp only [findSt, hc] at hmiss
    simp only [hc, hmiss, hrun]

/-- Path equation: a deterministic target whose substitute misses the cache
and whose constructor raises propagates the error. -/
theorem finish_call_eq_det_submiss_err {args : List Value} {node : CNode} {tname : String}
    {td : TargetDef} {target_info : InstantiatedNodeInfo}
    {kwargs : List (String × Value)} {infos : List (CKey × InstantiatedNodeInfo)}
    {st1 : EvalState} {dcfg : CNode} {e : EvalError}
    (hnd : td.funcInfo.not_deterministic = false)
    (hdc : (InstantiatedNodeInfo.combine infos (Option.some node)
      (Option.some target_info) Option.none).deterministic_config = Option.some dcfg)
    (hmiss : findSt st1 dcfg = Option.none)
    (hrun : td.run args kwargs = Except.error e) :
    finish_call args node tname td target_info kwargs infos st1 =
      (Except.error e, { st1 with callLog := st1.callLog ++ [(tname, kwargs)] }) := by
  simp only [finish_call, hnd, Bool.false_eq_true, if_false, hdc]
  rcases hc : st1.cache with - | c
  · simp only [hc, hrun]
  · simp only [findSt, hc] at hmiss
    simp only [hc, hmiss, hrun]

theorem bool_eq_false_of_not {b : Bool} (h : ¬ b = true) : b = false := by
  cases b
  · rfl
  · exact absurd rfl h

theorem finish_call_master (args : List Value) (node : CNode) (tname : String)
    (td : TargetDef) (target_info : InstantiatedNodeInfo)
    (kwargs : List (String × Value)) (infos : List (CKey × InstantiatedNodeInfo))
    (st1 : EvalState) (hRH : cacheRH st1)
    (hinfos : ∀ p ∈ infos, ∀ d, p.snd.deterministic_config = Option.some d → d.hasRH = true)
    (hfit : ∀ p ∈ infos, keyFits p.fst node) :
    cacheRH (finish_call args node tname td target_info kwargs infos st1).snd ∧
    (∀ x, (finish_call args node tname td target_info kwargs infos st1).fst = Except.ok x →
      ∀ d, x.info.deterministic_config = Option.some d → d.hasRH = true) ∧
    (∀ k, k.hasRH = false → ¬ cnKeyEq node k = true →
      findSt (finish_call args node tname td target_info kwargs infos st1).snd k =
        findSt st1 k) ∧
    (∀ e, (finish_call args node tname td target_info kwargs infos st1).fst =
        Except.error e →
      (finish_call args node tname td target_info kwargs infos st1).snd.cache = st1.cache) ∧
    (st1.cache = Option.none →
      (finish_call args node tname td target_info kwargs infos st1).snd.cache =
        Option.none) := by
  by_cases hnd : td.funcInfo.not_deterministic = true
  · rcases hrun : td.run args kwargs with e | v
    · rw [finish_call_eq_nd_err hnd hrun]
      refine ⟨cacheRH_congr rfl hRH, ?_, ?_, ?_, ?_⟩
      · intro x hx; cases hx
      · intro k _ _; exact findSt_congr rfl k
      · intro e2 _; rfl
      · intro h; exact h
    · rw [finish_call_eq_nd_ok hnd hrun]
      dsimp only
      have hres : ∀ d,
          ({ InstantiatedNodeInfo.combine infos Option.none (Option.some target_info)
              (Option.some (resultHashPlaceholder v)) with
            time_target := Option.some 0 } : InstantiatedNodeInfo).deterministic_config =
            Option.some d → d.hasRH = true := by
        intro d hd
        rw [show ({ InstantiatedNodeInfo.combine infos Option.none (Option.some target_info)
            (Option.some (resultHashPlaceholder v)) with
            time_target := Option.some 0 } : InstantiatedNodeInfo).deterministic_config =
            Option.some (resultHashPlaceholder v) from rfl] at hd
        cases hd
        exact hasRH_placeholder v
      refine ⟨?_, ?_, ?_, ?_, ?_⟩
      · exact cache_write_step_RH _ _ _ _ (cacheRH_congr rfl hRH) hres
      · intro x hx d hd
        cases hx
        exact hres d hd
      · intro k _ hne
        rw [cache_write_step_find_other _ _ _ _ k hne hne]
        exact findSt_congr rfl k
      · intro e he; cases he
      · intro h
        rw [cache_write_step_none _ _ _ _ (by exact h)]
        exact h
  · have hndf : td.funcInfo.not_deterministic = false := bool_eq_false_of_not hnd
    rcases hdc : (InstantiatedNodeInfo.combine infos (Option.some node)
        (Option.some target_info) Option.none).deterministic_config with - | dcfg
    · rcases hrun : td.run args kwargs with e | v
      · rw [finish_call_eq_det_nodc_err hndf hdc hrun]
        refine ⟨cacheRH_congr rfl hRH, ?_, ?_, ?_, ?_⟩
        · intro x hx; cases hx
        · intro k _ _; exact findSt_congr rfl k
        · intro e2 _; rfl
        · intro h; exact h
      · rw [finish_call_eq_det_nodc_ok hndf hdc hrun]
        dsimp only
        have hres : ∀ d,
            ({ InstantiatedNodeInfo.combine infos (Option.some node)
                (Option.some target_info) Option.none with
              time_target := Option.some 0 } : InstantiatedNodeInfo).deterministic_config =
              Option.some d → d.hasRH = true := by
          intro d hd
          rw [show ({ InstantiatedNodeInfo.combine infos (Option.some node)
              (Option.some target_info) Option.none with
              time_target := Option.some 0 } : InstantiatedNodeInfo).deterministic_config =
              (InstantiatedNodeInfo.combine infos (Option.some node)
                (Option.some target_info) Option.none).deterministic_config from rfl,
            hdc] at hd
          cases hd
        refine ⟨?_, ?_, ?_, ?_, ?_⟩
        · exact cache_write_step_RH _ _ _ _ (cacheRH_congr rfl hRH) hres
        · intro x hx d hd
          cases hx
          exact hres d hd
        · intro k _ hne
          rw [cache_write_step_find_other _ _ _ _ k hne hne]
          exact findSt_congr rfl k
        · intro e he; cases he
        · intro h
          rw [cache_write_step_none _ _ _ _ (by exact h)]
          exact h
    · have hdcRH : dcfg.hasRH = true :=
        combine_dc_RH infos node (Option.some target_info) hinfos hfit dcfg hdc
      rcases hhit : findSt st1 dcfg with - | rstored
      · rcases hrun : td.run args kwargs with e | v
        · rw [finish_call_eq_det_submiss_err hndf hdc hhit hrun]
          refine ⟨cacheRH_congr rfl hRH, ?_, ?_, ?_, ?_⟩
          · intro x hx; cases hx
          · intro k _ _; exact findSt_congr rfl k
          · intro e2 _; rfl
          · intro h; exact h
        · rw [finish_call_eq_det_submiss_ok hndf hdc hhit hrun]
          dsimp only
          have hres : ∀ d,
              ({ InstantiatedNodeInfo.combine infos (Option.some node)
                  (Option.some target_info) Option.none with
                time_target := Option.some 0 } : InstantiatedNodeInfo).deterministic_config =
                Option.some d → d.hasRH = true := by
            intro d hd
            rw [show ({ InstantiatedNodeInfo.combine infos (Option.some node)
                (Option.some target_info) Option.none with
                time_target := Option.some 0 } : InstantiatedNodeInfo).deterministic_config =
                (InstantiatedNodeInfo.combine infos (Option.some node)
                  (Option.some target_info) Option.none).deterministic_config from rfl,
              hdc] at hd
            cases hd
            exact hdcRH
          refine ⟨?_, ?_, ?_, ?_, ?_⟩
          · exact cache_write_step_RH _ _ _ _ (cacheRH_congr rfl hRH) hres
          · intro x hx d hd
            cases hx
            exact hres d hd
          · intro k hk hne
            rw [cache_write_step_find_other _ _ _ _ k
              (cnKeyEq_false_of_hasRH hdcRH hk) hne]
            exact findSt_congr rfl k
          · intro e he; cases he
          · intro h
            rw [cache_write_step_none _ _ _ _ (by exact h)]
            exact h
      · rw [finish_call_eq_det_subhit hndf hdc hhit]
        refine ⟨hRH, ?_, ?_, ?_, ?_⟩
        · intro x hx d hd
          cases hx
          rcases hcc : st1.cache with - | c
          · simp only [findSt, hcc] at hhit
            exact Option.noConfusion hhit
          · simp only [findSt, hcc] at hhit
            obtain ⟨k0, hk0⟩ := cacheFind_mem c dcfg rstored hhit
            exact hRH (k0, rstored) (by simpa only [cacheList, hcc] using hk0) d hd
        · intro k _ _; rfl
        · intro e he; cases he
        · intro h
          simp only [findSt, h] at hhit
          exact Option.noConfusion hhit

theorem instantiate_node_eq_scalar (env : EvalEnv) (args : List Value)
    (convert : ConvertMode) (recursive : Bool) (v : Value) (st : EvalState) :
    instantiate_node env args convert recursive (CNode.scalar v) st =
      (Except.ok { inst := v }, st) := by
  simp only [instantiate_node]

theorem instantiate_node_eq_seq (env : EvalEnv) (args : List Value)
    (convert : ConvertMode) (recursive : Bool) (items : CNodes) (st : EvalState) :
    instantiate_node env args convert recursive (CNode.seq items) st =
      (match instantiate_items env convert recursive items st with
       | (Except.error e, st1) => (Except.error e, st1)
       | (Except.ok rs, st1) =>
           (Except.ok
             { inst := Value.vlist
                 (match convert with
                  | ConvertMode.mAll => false
                  | ConvertMode.mPartial => false
                  | ConvertMode.mNone => true)
                 (Values.ofList (rs.map (fun r => r.inst))),
               info := InstantiatedNodeInfo.combine (enumInfos rs 0)
                 (Option.some (CNode.seq items)) Option.none Option.none }, st1)) := by
  simp only [instantiate_node]

theorem instantiate_node_eq_rec_err (env : EvalEnv) (args : List Value)
    (convert : ConvertMode) (recursive : Bool) (entries : CEntries) (st : EvalState)
    (e : EvalError) (h : readRecursive entries recursive = Except.error e) :
    instantiate_node env args convert recursive (CNode.mapping entries) st =
      (Except.error e, st) := by
  simp only [instantiate_node, h]

theorem instantiate_node_eq_hit (env : EvalEnv) (args : List Value)
    (convert : ConvertMode) (recursive : Bool) (entries : CEntries) (st : EvalState)
    (rec1 : Bool) (r : InstantiatedNode)
    (hrec : readRecursive entries recursive = Except.ok rec1)
    (htgt : entries.hasKey "_target_" = true)
    (hfind : findSt st (CNode.mapping entries) = Option.some r) :
    instantiate_node env args convert recursive (CNode.mapping entries) st =
      (Except.ok r, st) := by
  simp only [instantiate_node, hrec, htgt, if_true]
  rcases hc : st.cache with - | c
  · simp only [findSt, hc] at hfind
    exact Option.noConfusion hfind
  · simp only [findSt, hc] at hfind
    simp only [hc, hfind]

theorem instantiate_node_eq_call (env : EvalEnv) (args : List Value)
    (convert : ConvertMode) (recursive : Bool) (entries : CEntries) (st : EvalState)
    (rec1 : Bool) (tname : String) (td : TargetDef)
    (kwargs : List (String × Value)) (infos : List (CKey × InstantiatedNodeInfo))
    (st1 : EvalState)
    (hrec : readRecursive entries recursive = Except.ok rec1)
    (htgt : entries.lookup "_target_" = Option.some (CNode.scalar (Value.vstr tname)))
    (hmiss : findSt st (CNode.mapping entries) = Option.none)
    (hres : env.resolve tname = Option.some td)
    (hkw : instantiate_kwargs env (effective_convert entries convert) rec1 entries st =
      (Except.ok (kwargs, infos), st1)) :
    instantiate_node env args convert recursive (CNode.mapping entries) st =
      finish_call args (CNode.mapping entries) tname td
        { not_deterministic := td.funcInfo.not_deterministic,
          cache_result := read_cache_result_flag entries }
        kwargs infos st1 := by
  have htgt2 : entries.hasKey "_target_" = true := by
    simp only [CEntries.hasKey, htgt, Option.isSome]
  simp only [instantiate_node, hrec, htgt2, if_true, htgt, hres, hkw]
  rcases hc : st.cache with - | c
  · rfl
  · simp only [findSt, hc] at hmiss
    simp only [hc, hmiss]

theorem instantiate_node_eq_call_kwargs_err (env : EvalEnv) (args : List Value)
    (convert : ConvertMode) (recursive : Bool) (entries : CEntries) (st : EvalState)
    (rec1 : Bool) (tname : String) (td : TargetDef) (e : EvalError) (st1 : EvalState)
    (hrec : readRecursive entries recursive = Except.ok rec1)
    (htgt : entries.lookup "_target_" = Option.some (CNode.scalar (Value.vstr tname)))
    (hmiss : findSt st (CNode.mapping entries) = Option.none)
    (hres : env.resolve tname = Option.some td)
    (hkw : instantiate_kwargs env (effective_convert entries convert) rec1 entries st =
      (Except.error e, st1)) :
    instantiate_node env args convert recursive (CNode.mapping entries) st =
      (Except.error e, st1) := by
  have htgt2 : entries.hasKey "_target_" = true := by
    simp only [CEntries.hasKey, htgt, Option.isSome]
  simp only [instantiate_node, hrec, htgt2, if_true, htgt, hres, hkw]
  rcases hc : st.cache with - | c
  · rfl
  · simp only [findSt, hc] at hmiss
    simp only [hc, hmiss]

theorem instantiate_node_eq_unresolved (env : EvalEnv) (args : List Value)
    (convert : ConvertMode) (recursive : Bool) (entries : CEntries) (st : EvalState)
    (rec1 : Bool) (tname : String)
    (hrec : readRecursive entries recursive = Except.ok rec1)
    (htgt : entries.lookup "_target_" = Option.some (CNode.scalar (Value.vstr tname)))
    (hmiss : findSt st (CNode.mapping entries) = Option.none)
    (hres : env.resolve tname = Option.none) :
    instantiate_node env args convert recursive (CNode.mapping entries) st =
      (Except.error (EvalError.unresolvedTarget tname), st) := by
  have htgt2 : entries.hasKey "_target_" = true := by
    simp only [CEntries.hasKey, htgt, Option.isSome]
  simp only [instantiate_node, hrec, htgt2, if_true, htgt, hres]
  rcases hc : st.cache with - | c
  · rfl
  · simp only [findSt, hc] at hmiss
    simp only [hc, hmiss]

theorem instantiate_node_eq_plain (env : EvalEnv) (args : List Value)
    (convert : ConvertMode) (recursive : Bool) (entries : CEntries) (st : EvalState)
    (rec1 : Bool)
    (hrec : readRecursive entries recursive = Except.ok rec1)
    (htgt : entries.hasKey "_target_" = false) :
    instantiate_node env args convert recursive (CNode.mapping entries) st =
      (match instantiate_entries env (effective_convert entries convert) rec1 entries st with
       | (Except.error e, st1) => (Except.error e, st1)
       | (Except.ok rs, st1) =>
           (Except.ok
             { inst := Value.vdict
                 (match effective_convert entries convert with
                  | ConvertMode.mAll => false
                  | ConvertMode.mPartial => false
                  | ConvertMode.mNone => true)
                 (VEntries.ofList (rs.map (fun p => (p.fst, p.snd.inst)))),
               info := InstantiatedNodeInfo.combine
                 (rs.map (fun p => (CKey.key p.fst, p.snd.info)))
                 (Option.some (CNode.mapping entries)) Option.none Option.none },
            st1)) := by
  simp only [instantiate_node, hrec, htgt, if_false, Bool.false_eq_true]

/-- Discrimination of a string-valued target entry. -/
def isStringTarget : Option CNode → Bool
  | Option.some (CNode.scalar (Value.vstr _)) => true
  | _ => false

theorem isStringTarget_eq_true {o : Option CNode} (h : isStringTarget o = true) :
    ∃ s, o = Option.some (CNode.scalar (Value.vstr s)) := by
  rcases o with - | tv
  · cases h
  · rcases tv with v | items | es
    · cases v <;>
        first
          | (rename_i s; exact ⟨s, rfl⟩)
          | exact absurd h (by simp [isStringTarget])
    · exact absurd h (by simp [isStringTarget])
    · exact absurd h (by simp [isStringTarget])

theorem instantiate_node_eq_badtarget (env : EvalEnv) (args : List Value)
    (convert : ConvertMode) (recursive : Bool) (entries : CEntries) (st : EvalState)
    (rec1 : Bool)
    (hrec : readRecursive entries recursive = Except.ok rec1)
    (htgt : entries.hasKey "_target_" = true)
    (hbad : isStringTarget (entries.lookup "_target_") = false)
    (hmiss : findSt st (CNode.mapping entries) = Option.none) :
    instantiate_node env args convert recursive (CNode.mapping entries) st =
      (Except.error (EvalError.unresolvedTarget "invalid target"), st) := by
  simp only [instantiate_node, hrec, htgt, if_true]
  rcases hl : entries.lookup "_target_" with - | tv
  · simp [CEntries.hasKey, hl] at htgt
  · rw [hl] at hbad
    rcases hc : st.cache with - | c
    · rcases tv with v | items | es
      · cases v <;> first | rfl | (exact absurd hbad (by simp [isStringTarget]))
      · rfl
      · rfl
    · have hfind2 : cacheFind c (CNode.mapping entries) = Option.none := by
        simpa [findSt, hc] using hmiss
      dsimp only
      rw [hfind2]
      rcases tv with v | items | es
      · cases v <;> first | rfl | (exact absurd hbad (by simp [isStringTarget]))
      · rfl
      · rfl

theorem enumInfos_mem : ∀ (rs : List InstantiatedNode) (i : Nat)
    (p : CKey × InstantiatedNodeInfo), p ∈ enumInfos rs i →
    (∃ x ∈ rs, p.snd = x.info) ∧ ∃ j, p.fst = CKey.idx j ∧ j < i + rs.length
  | [], _, p, h => by cases h
  | r :: rest, i, p, h => by
      simp only [enumInfos, List.mem_cons] at h
      rcases h with h | h
      · subst h
        exact ⟨⟨r, List.mem_cons_self r rest, rfl⟩, i, rfl,
          by simp only [List.length_cons]; omega⟩
      · obtain ⟨⟨x, hx, hsnd⟩, j, hfst, hj⟩ := enumInfos_mem rest (i + 1) p h
        exact ⟨⟨x, List.mem_cons_of_mem r hx, hsnd⟩, j, hfst,
          by simp only [List.length_cons]; omega⟩

/-- Length of to-list of a node list agrees with the length function. -/
theorem CNodes.toList_length : ∀ items : CNodes, items.toList.length = items.length
  | CNodes.nil => rfl
  | CNodes.cons h t => by
      simp only [CNodes.toList, CNodes.length, List.length_cons, CNodes.toList_length t]

/-- Bundle of facts established by the master induction for the evaluation
of a single node: RH-soundness of the cache is preserved, a returned
substitute carries the result-hash marker, the lookup of every strictly
larger marker-free key is untouched, an error leaves every at least as
large marker-free key untouched, and a disabled cache stays disabled. -/
def NodeMasterProp (node : CNode) (st : EvalState)
    (r : Except EvalError InstantiatedNode × EvalState) : Prop :=
  cacheRH r.snd ∧
  (∀ x, r.fst = Except.ok x → ∀ d, x.info.deterministic_config = Option.some d →
    d.hasRH = true) ∧
  (∀ k, k.hasRH = false → node.sz < k.sz → findSt r.snd k = findSt st k) ∧
  (∀ e, r.fst = Except.error e → ∀ k, k.hasRH = false → node.sz ≤ k.sz →
    findSt r.snd k = findSt st k) ∧
  (st.cache = Option.none → r.snd.cache = Option.none)

/-- Bundle of state facts established by the master induction for the
evaluation of a list of subtrees of total size sz. -/
def ListMasterProp (sz : Nat) (st : EvalState) (st' : EvalState) : Prop :=
  cacheRH st' ∧
  (∀ k, k.hasRH = false → sz < k.sz → findSt st' k = findSt st k) ∧
  (st.cache = Option.none → st'.cache = Option.none)

mutual

theorem instantiate_node_master : ∀ (env : EvalEnv) (args : List Value)
    (convert : ConvertMode) (recursive : Bool) (node : CNode) (st : EvalState),
    cacheRH st →
    NodeMasterProp node st (instantiate_node env args convert recursive node st)
  | env, args, convert, recursive, CNode.scalar v, st, hRH => by
      unfold NodeMasterProp
      rw [instantiate_node_eq_scalar]
      refine ⟨hRH, ?_, ?_, ?_, ?_⟩
      · intro x hx d hd
        cases hx
        exact Option.noConfusion hd
      · intro k _ _; rfl
      · intro e he; cases he
      · intro h; exact h
  | env, args, convert, recursive, CNode.seq items, st, hRH => by
      unfold NodeMasterProp
      rw [instantiate_node_eq_seq]
      have IH := instantiate_items_master env convert recursive items st hRH
      rcases hI : instantiate_items env convert recursive items st with ⟨res, st1⟩
      rw [hI] at IH
      unfold ListMasterProp at IH
      cases res with
      | error e =>
          dsimp only
          refine ⟨IH.1.1, ?_, ?_, ?_, IH.1.2.2⟩
          · intro x hx; cases hx
          · intro k hk hsz
            exact IH.1.2.1 k hk (by simp only [CNode.sz] at hsz; omega)
          · intro e2 _ k hk hsz
            exact IH.1.2.1 k hk (by simp only [CNode.sz] at hsz; omega)
      | ok rs =>
          dsimp only
          refine ⟨IH.1.1, ?_, ?_, ?_, IH.1.2.2⟩
          · intro x hx d hd
            cases hx
            refine combine_dc_RH (enumInfos rs 0) (CNode.seq items) Option.none ?_ ?_ d hd
            · intro p hp d2 hd2
              obtain ⟨⟨x2, hx2, hsnd⟩, -⟩ := enumInfos_mem rs 0 p hp
              exact (IH.2 rs rfl).1 x2 hx2 d2 (by rw [← hsnd]; exact hd2)
            · intro p hp
              obtain ⟨-, j, hfst, hj⟩ := enumInfos_mem rs 0 p hp
              rw [hfst]
              show j < items.length
              have hlen := (IH.2 rs rfl).2
              omega
          · intro k hk hsz
            exact IH.1.2.1 k hk (by simp only [CNode.sz] at hsz; omega)
          · intro e he; cases he
  | env, args, convert, recursive, CNode.mapping entries, st, hRH => by
      unfold NodeMasterProp
      rcases hrec : readRecursive entries recursive with e | rec1
      · rw [instantiate_node_eq_rec_err env args convert recursive entries st e hrec]
        refine ⟨hRH, ?_, ?_, ?_, ?_⟩
        · intro x hx; cases hx
        · intro k _ _; rfl
        · intro e2 _ k _ _; rfl
        · intro h; exact h
      · by_cases htgt : entries.hasKey "_target_" = true
        · rcases hfind : findSt st (CNode.mapping entries) with - | r
          · rcases hl : entries.lookup "_target_" with - | tv
            · exfalso
              simp [CEntries.hasKey, hl] at htgt
            · by_cases hst : isStringTarget (entries.lookup "_target_") = true
              · obtain ⟨tname, htl⟩ := isStringTarget_eq_true hst
                rcases henv : env.resolve tname with - | td
                · rw [instantiate_node_eq_unresolved env args convert recursive entries st
                    rec1 tname hrec htl hfind henv]
                  refine ⟨hRH, ?_, ?_, ?_, ?_⟩
                  · intro x hx; cases hx
                  · intro k _ _; rfl
                  · intro e2 _ k _ _; rfl
                  · intro h; exact h
                · have IHkw := instantiate_kwargs_master env
                    (effective_convert entries convert) rec1 entries st hRH
                  rcases hkw : instantiate_kwargs env (effective_convert entries convert)
                      rec1 entries st with ⟨kres, st1⟩
                  rw [hkw] at IHkw
                  unfold ListMasterProp at IHkw
                  cases kres with
                  | error e =>
                      rw [instantiate_node_eq_call_kwargs_err env args convert recursive
                        entries st rec1 tname td e st1 hrec htl hfind henv hkw]
                      refine ⟨IHkw.1.1, ?_, ?_, ?_, IHkw.1.2.2⟩
                      · intro x hx; cases hx
                      · intro k hk hsz
                        exact IHkw.1.2.1 k hk (by simp only [CNode.sz] at hsz; omega)
                      · intro e2 _ k hk hsz
                        exact IHkw.1.2.1 k hk (by simp only [CNode.sz] at hsz; omega)
                  | ok out =>
                      rcases out with ⟨kwargs, infos⟩
                      rw [instantiate_node_eq_call env args convert recursive entries st
                        rec1 tname td kwargs infos st1 hrec htl hfind henv hkw]
                      have hinfos : ∀ p ∈ infos, ∀ d,
                          p.snd.deterministic_config = Option.some d → d.hasRH = true :=
                        fun p hp => (IHkw.2 (kwargs, infos) rfl p hp).1
                      have hfit : ∀ p ∈ infos, keyFits p.fst (CNode.mapping entries) := by
                        intro p hp
                        obtain ⟨s, hs⟩ := (IHkw.2 (kwargs, infos) rfl p hp).2
                        rw [hs]
                        show True
                        trivial
                      have FCM := finish_call_master args (CNode.mapping entries) tname td
                        { not_deterministic := td.funcInfo.not_deterministic,
                          cache_result := read_cache_result_flag entries }
                        kwargs infos st1 IHkw.1.1 hinfos hfit
                      refine ⟨FCM.1, FCM.2.1, ?_, ?_, ?_⟩
                      · intro k hk hsz
                        have hne : ¬ cnKeyEq (CNode.mapping entries) k = true := by
                          intro hc
                          have := cnKeyEq_sz hc
                          simp only [CNode.sz] at this hsz
                          omega
                        rw [FCM.2.2.1 k hk hne]
                        exact IHkw.1.2.1 k hk (by simp only [CNode.sz] at hsz; omega)
                      · intro e he k hk hsz
                        rw [findSt_congr (FCM.2.2.2.1 e he) k]
                        exact IHkw.1.2.1 k hk (by simp only [CNode.sz] at hsz; omega)
                      · intro h
                        exact FCM.2.2.2.2 (IHkw.1.2.2 h)
              · have hbad : isStringTarget (entries.lookup "_target_") = false :=
                  bool_eq_false_of_not hst
                rw [instantiate_node_eq_badtarget env args convert recursive entries st
                  rec1 hrec htgt hbad hfind]
                refine ⟨hRH, ?_, ?_, ?_, ?_⟩
                · intro x hx; cases hx
                · intro k _ _; rfl
                · intro e2 _ k _ _; rfl
                · intro h; exact h
          · rw [instantiate_node_eq_hit env args convert recursive entries st rec1 r
              hrec htgt hfind]
            refine ⟨hRH, ?_, ?_, ?_, ?_⟩
            · intro x hx d hd
              cases hx
              rcases hcc : st.cache with - | c
              · simp only [findSt, hcc] at hfind
                exact Option.noConfusion hfind
              · simp only [findSt, hcc] at hfind
                obtain ⟨k0, hk0⟩ := cacheFind_mem c (CNode.mapping entries) r hfind
                exact hRH (k0, r) (by simpa only [cacheList, hcc] using hk0) d hd
            · intro k _ _; rfl
            · intro e he; cases he
            · intro h; exact h
        · have htgtf : entries.hasKey "_target_" = false := bool_eq_false_of_not htgt
          rw [instantiate_node_eq_plain env args convert recursive entries st rec1
            hrec htgtf]
          have IHe := instantiate_entries_master env (effective_convert entries convert)
            rec1 entries st hRH
          rcases hE : instantiate_entries env (effective_convert entries convert) rec1
              entries st with ⟨res, st1⟩
          rw [hE] at IHe
          unfold ListMasterProp at IHe
          cases res with
          | error e =>
              dsimp only
              refine ⟨IHe.1.1, ?_, ?_, ?_, IHe.1.2.2⟩
              · intro x hx; cases hx
              · intro k hk hsz
                exact IHe.1.2.1 k hk (by simp only [CNode.sz] at hsz; omega)
              · intro e2 _ k hk hsz
                exact IHe.1.2.1 k hk (by simp only [CNode.sz] at hsz; omega)
          | ok rs =>
              dsimp only
              refine ⟨IHe.1.1, ?_, ?_, ?_, IHe.1.2.2⟩
              · intro x hx d hd
                cases hx
                refine combine_dc_RH (rs.map (fun p => (CKey.key p.fst, p.snd.info)))
                  (CNode.mapping entries) Option.none ?_ ?_ d hd
                · intro p hp d2 hd2
                  obtain ⟨q, hq, hqe⟩ := List.mem_map.mp hp
                  have := IHe.2 rs rfl q hq d2
                  rw [← hqe] at hd2
                  exact this hd2
                · intro p hp
                  obtain ⟨q, hq, hqe⟩ := List.mem_map.mp hp
                  rw [← hqe]
                  show True
                  trivial
              · intro k hk hsz
                exact IHe.1.2.1 k hk (by simp only [CNode.sz] at hsz; omega)
              · intro e he; cases he

theorem instantiate_items_master : ∀ (env : EvalEnv) (convert : ConvertMode)
    (recursive : Bool) (items : CNodes) (st : EvalState), cacheRH st →
    ListMasterProp items.sz st (instantiate_items env convert recursive items st).snd ∧
    (∀ rs, (instantiate_items env convert recursive items st).fst = Except.ok rs →
      (∀ x ∈ rs, ∀ d, x.info.deterministic_config = Option.some d → d.hasRH = true) ∧
      rs.length = items.length)
  | env, convert, recursive, CNodes.nil, st, hRH => by
      unfold ListMasterProp
      refine ⟨⟨hRH, fun k _ _ => rfl, fun h => h⟩, ?_⟩
      intro rs hrs
      cases hrs
      exact ⟨fun x hx => absurd hx (List.not_mem_nil x), rfl⟩
  | env, convert, recursive, CNodes.cons h t, st, hRH => by
      unfold ListMasterProp
      simp only [instantiate_items]
      have IH1 := instantiate_node_master env [] convert recursive h st hRH
      rcases hN : instantiate_node env [] convert recursive h st with ⟨res1, st1⟩
      rw [hN] at IH1
      unfold NodeMasterProp at IH1
      cases res1 with
      | error e =>
          dsimp only
          refine ⟨⟨IH1.1, ?_, IH1.2.2.2.2⟩, ?_⟩
          · intro k hk hsz
            exact IH1.2.2.1 k hk (by
              have := CNode.sz_pos h
              simp only [CNodes.sz] at hsz
              omega)
          · intro rs hrs; cases hrs
      | ok r =>
          dsimp only
          have IH2 := instantiate_items_master env convert recursive t st1 IH1.1
          rcases hT : instantiate_items env convert recursive t st1 with ⟨res2, st2⟩
          rw [hT] at IH2
          unfold ListMasterProp at IH2
          cases res2 with
          | error e =>
              dsimp only
              refine ⟨⟨IH2.1.1, ?_, fun hnone => IH2.1.2.2 (IH1.2.2.2.2 hnone)⟩, ?_⟩
              · intro k hk hsz
                simp only [CNodes.sz] at hsz
                rw [IH2.1.2.1 k hk (by omega)]
                exact IH1.2.2.1 k hk (by have := CNode.sz_pos h; omega)
              · intro rs hrs; cases hrs
          | ok rs =>
              dsimp only
              refine ⟨⟨IH2.1.1, ?_, fun hnone => IH2.1.2.2 (IH1.2.2.2.2 hnone)⟩, ?_⟩
              · intro k hk hsz
                simp only [CNodes.sz] at hsz
                rw [IH2.1.2.1 k hk (by omega)]
                exact IH1.2.2.1 k hk (by have := CNode.sz_pos h; omega)
              · intro rs2 hrs2
                cases hrs2
                constructor
                · intro x hx d hd
                  rcases List.mem_cons.mp hx with hx1 | hx1
                  · subst hx1
                    exact IH1.2.1 x rfl d hd
                  · exact (IH2.2 rs rfl).1 x hx1 d hd
                · simp only [List.length_cons, CNodes.length]
                  rw [(IH2.2 rs rfl).2]

theorem instantiate_entries_master : ∀ (env : EvalEnv) (convert : ConvertMode)
    (recursive : Bool) (entries : CEntries) (st : EvalState), cacheRH st →
    ListMasterProp entries.sz st
      (instantiate_entries env convert recursive entries st).snd ∧
    (∀ rs, (instantiate_entries env convert recursive entries st).fst = Except.ok rs →
      ∀ q ∈ rs, ∀ d, q.snd.info.deterministic_config = Option.some d → d.hasRH = true)
  | env, convert, recursive, CEntries.nil, st, hRH => by
      unfold ListMasterProp
      refine ⟨⟨hRH, fun k _ _ => rfl, fun hh => hh⟩, ?_⟩
      intro rs hrs
      cases hrs
      exact fun q hq => absurd hq (List.not_mem_nil q)
  | env, convert, recursive, CEntries.cons k0 v rest, st, hRH => by
      unfold ListMasterProp
      simp only [instantiate_entries]
      have IH1 := instantiate_node_master env [] convert recursive v st hRH
      rcases hN : instantiate_node env [] convert recursive v st with ⟨res1, st1⟩
      rw [hN] at IH1
      unfold NodeMasterProp at IH1
      cases res1 with
      | error e =>
          dsimp only
          refine ⟨⟨IH1.1, ?_, IH1.2.2.2.2⟩, ?_⟩
          · intro k hk hsz
            exact IH1.2.2.1 k hk (by
              have := CNode.sz_pos v
              simp only [CEntries.sz] at hsz
              omega)
          · intro rs hrs; cases hrs
      | ok r =>
          dsimp only
          have IH2 := instantiate_entries_master env convert recursive rest st1 IH1.1
          rcases hT : instantiate_entries env convert recursive rest st1 with ⟨res2, st2⟩
          rw [hT] at IH2
          unfold ListMasterProp at IH2
          cases res2 with
          | error e =>
              dsimp only
              refine ⟨⟨IH2.1.1, ?_, fun hnone => IH2.1.2.2 (IH1.2.2.2.2 hnone)⟩, ?_⟩
              · intro k hk hsz
                simp only [CEntries.sz] at hsz
                rw [IH2.1.2.1 k hk (by omega)]
                exact IH1.2.2.1 k hk (by have := CNode.sz_pos v; omega)
              · intro rs hrs; cases hrs
          | ok rs =>
              dsimp only
              refine ⟨⟨IH2.1.1, ?_, fun hnone => IH2.1.2.2 (IH1.2.2.2.2 hnone)⟩, ?_⟩
              · intro k hk hsz
                simp only [CEntries.sz] at hsz
                rw [IH2.1.2.1 k hk (by omega)]
                exact IH1.2.2.1 k hk (by have := CNode.sz_pos v; omega)
              · intro rs2 hrs2
                cases hrs2
                intro q hq d hd
                rcases List.mem_cons.mp hq with hq1 | hq1
                · subst hq1
                  exact IH1.2.1 r rfl d hd
                · exact IH2.2 rs rfl q hq1 d hd

theorem instantiate_kwargs_master : ∀ (env : EvalEnv) (convert : ConvertMode)
    (recursive : Bool) (entries : CEntries) (st : EvalState), cacheRH st →
    ListMasterProp entries.sz st
      (instantiate_kwargs env convert recursive entries st).snd ∧
    (∀ out, (instantiate_kwargs env convert recursive entries st).fst = Except.ok out →
      ∀ p ∈ out.snd, (∀ d, p.snd.deterministic_config = Option.some d → d.hasRH = true) ∧
        ∃ s, p.fst = CKey.key s)
  | env, convert, recursive, CEntries.nil, st, hRH => by
      unfold ListMasterProp
      refine ⟨⟨hRH, fun k _ _ => rfl, fun hh => hh⟩, ?_⟩
      intro out hout
      cases hout
      exact fun p hp => absurd hp (List.not_mem_nil p)
  | env, convert, recursive, CEntries.cons k0 v rest, st, hRH => by
      unfold ListMasterProp
      simp only [instantiate_kwargs]
      by_cases hex : excludeKeys.contains k0 = true
      · rw [if_pos hex]
        have IH := instantiate_kwargs_master env convert recursive rest st hRH
        unfold ListMasterProp at IH
        refine ⟨⟨IH.1.1, ?_, IH.1.2.2⟩, IH.2⟩
        intro k hk hsz
        exact IH.1.2.1 k hk (by
          have := CNode.sz_pos v
          simp only [CEntries.sz] at hsz
          omega)
      · rw [if_neg hex]
        by_cases hrec : recursive = true
        · rw [hrec, if_pos rfl]
          have IH1 := instantiate_node_master env [] convert true v st hRH
          rcases hN : instantiate_node env [] convert true v st with ⟨res1, st1⟩
          rw [hN] at IH1
          unfold NodeMasterProp at IH1
          cases res1 with
          | error e =>
              dsimp only
              refine ⟨⟨IH1.1, ?_, IH1.2.2.2.2⟩, ?_⟩
              · intro k hk hsz
                exact IH1.2.2.1 k hk (by
                  have := CNode.sz_pos v
                  simp only [CEntries.sz] at hsz
                  omega)
              · intro out hout; cases hout
          | ok r =>
              dsimp only
              have IH2 := instantiate_kwargs_master env convert true rest st1 IH1.1
              rcases hT : instantiate_kwargs env convert true rest st1 with ⟨res2, st2⟩
              rw [hT] at IH2
              unfold ListMasterProp at IH2
              cases res2 with
              | error e =>
                  dsimp only
                  refine ⟨⟨IH2.1.1, ?_, fun hnone => IH2.1.2.2 (IH1.2.2.2.2 hnone)⟩, ?_⟩
                  · intro k hk hsz
                    simp only [CEntries.sz] at hsz
                    rw [IH2.1.2.1 k hk (by omega)]
                    exact IH1.2.2.1 k hk (by have := CNode.sz_pos v; omega)
                  · intro out hout; cases hout
              | ok out2 =>
                  rcases out2 with ⟨kws, infos⟩
                  dsimp only
                  refine ⟨⟨IH2.1.1, ?_, fun hnone => IH2.1.2.2 (IH1.2.2.2.2 hnone)⟩, ?_⟩
                  · intro k hk hsz
                    simp only [CEntries.sz] at hsz
                    rw [IH2.1.2.1 k hk (by omega)]
                    exact IH1.2.2.1 k hk (by have := CNode.sz_pos v; omega)
                  · intro out hout
                    cases hout
                    intro p hp
                    rcases List.mem_cons.mp hp with hp1 | hp1
                    · subst hp1
                      exact ⟨fun d hd => IH1.2.1 r rfl d hd, k0, rfl⟩
                    · exact IH2.2 (kws, infos) rfl p hp1
        · have hrecf : recursive = false := bool_eq_false_of_not hrec
          rw [hrecf, if_neg (by simp)]
          have IH := instantiate_kwargs_master env convert false rest st hRH
          rcases hT : instantiate_kwargs env convert false rest st with ⟨res2, st2⟩
          rw [hT] at IH
          unfold ListMasterProp at IH
          cases res2 with
          | error e =>
              dsimp only
              refine ⟨⟨IH.1.1, ?_, IH.1.2.2⟩, ?_⟩
              · intro k hk hsz
                exact IH.1.2.1 k hk (by
                  have := CNode.sz_pos v
                  simp only [CEntries.sz] at hsz
                  omega)
              · intro out hout; cases hout
          | ok out2 =>
              rcases out2 with ⟨kws, infos⟩
              dsimp only
              refine ⟨⟨IH.1.1, ?_, IH.1.2.2⟩, ?_⟩
              · intro k hk hsz
                exact IH.1.2.1 k hk (by
                  have := CNode.sz_pos v
                  simp only [CEntries.sz] at hsz
                  omega)
              · intro out hout
                cases hout
                exact fun p hp => IH.2 (kws, infos) rfl p hp

end

/-- The keys of an entry list. -/
def CEntries.keys (es : CEntries) : List String := es.toList.map Prod.fst

mutual

/-- Well-formedness of a configuration tree as produced by the loader:
mapping keys are unique at every level (a Python dict cannot hold duplicate
keys). -/
def CNode.wfK : CNode → Bool
  | CNode.scalar _ => true
  | CNode.seq items => items.wfK
  | CNode.mapping entries => decide entries.keys.Nodup && entries.wfK

/-- Well-formedness of every element of a node list. -/
def CNodes.wfK : CNodes → Bool
  | CNodes.nil => true
  | CNodes.cons h t => h.wfK && t.wfK

/-- Well-formedness of every value of an entry list. -/
def CEntries.wfK : CEntries → Bool
  | CEntries.nil => true
  | CEntries.cons _ v rest => v.wfK && rest.wfK

end

mutual

/-- Full determinism of a configuration tree under an environment: every
Call node in it names a target that is not marked non-deterministic (the
check mirrors exactly the resolution performed by the engine; unresolvable
or malformed targets are not constrained because their evaluation aborts
before any metadata is produced). -/
def CNode.allDet (env : EvalEnv) : CNode → Bool
  | CNode.scalar _ => true
  | CNode.seq items => items.allDet env
  | CNode.mapping entries =>
      (match entries.lookup "_target_" with
       | Option.some (CNode.scalar (Value.vstr s)) =>
           (match env.resolve s with
            | Option.some td => ! td.funcInfo.not_deterministic
            | Option.none => true)
       | _ => true) && entries.allDet env

/-- Full determinism of every element of a node list. -/
def CNodes.allDet (env : EvalEnv) : CNodes → Bool
  | CNodes.nil => true
  | CNodes.cons h t => h.allDet env && t.allDet env

/-- Full determinism of every value of an entry list. -/
def CEntries.allDet (env : EvalEnv) : CEntries → Bool
  | CEntries.nil => true
  | CEntries.cons _ v rest => v.allDet env && rest.allDet env

end

theorem CEntries.toList_norm : ∀ es : CEntries,
    es.norm.toList = es.toList.map (fun p => (p.fst, p.snd.norm))
  | CEntries.nil => rfl
  | CEntries.cons k v rest => by
      simp only [CEntries.norm, CEntries.toList, List.map_cons]
      rw [CEntries.toList_norm rest]

theorem perm_all_eq {α : Type} {l1 l2 : List α} (h : l1.Perm l2) (p : α → Bool) :
    l1.all p = l2.all p := by
  induction h with
  | nil => rfl
  | cons x h ih => simp only [List.all_cons, ih]
  | swap x y l => cases hp : p x <;> cases hq : p y <;> simp [List.all_cons, hp, hq]
  | trans h1 h2 ih1 ih2 => rw [ih1, ih2]

theorem CEntries.wfK_eq_all : ∀ es : CEntries,
    es.wfK = es.toList.all (fun p => p.snd.wfK)
  | CEntries.nil => rfl
  | CEntries.cons k v rest => by
      simp only [CEntries.wfK, CEntries.toList, List.all_cons]
      rw [CEntries.wfK_eq_all rest]

theorem CEntries.allDet_eq_all (env : EvalEnv) : ∀ es : CEntries,
    es.allDet env = es.toList.all (fun p => (p.snd.allDet env))
  | CEntries.nil => rfl
  | CEntries.cons k v rest => by
      simp only [CEntries.allDet, CEntries.toList, List.all_cons]
      rw [CEntries.allDet_eq_all env rest]

theorem find?_map_norm : ∀ (l : List (String × CNode)) (k : String),
    (l.map (fun p => (p.fst, p.snd.norm))).find? (fun p => decide (p.fst = k)) =
      (l.find? (fun p => decide (p.fst = k))).map (fun p => (p.fst, p.snd.norm))
  | [], _ => rfl
  | q :: rest, k => by
      by_cases hq : q.fst = k
      · simp [List.find?, hq]
      · simpa [List.find?, hq] using find?_map_norm rest k

theorem find?_perm_nodup : ∀ {l1 l2 : List (String × CNode)}, l1.Perm l2 →
    (l1.map Prod.fst).Nodup → ∀ k,
    l1.find? (fun p => decide (p.fst = k)) = l2.find? (fun p => decide (p.fst = k)) := by
  intro l1 l2 h
  induction h with
  | nil => intro _ _; rfl
  | cons x h ih =>
      intro hnd k
      simp only [List.map_cons, List.nodup_cons] at hnd
      by_cases hx : x.fst = k
      · simp [List.find?, hx]
      · simpa [List.find?, hx] using ih hnd.2 k
  | swap x y l =>
      intro hnd k
      simp only [List.map_cons, List.nodup_cons, List.mem_cons] at hnd
      have hxy : y.fst ≠ x.fst := fun hcon => hnd.1 (Or.inl hcon)
      by_cases hx : x.fst = k <;> by_cases hy : y.fst = k
      · exact absurd (hy.trans hx.symm) hxy
      · simp [List.find?, hx, hy]
      · simp [List.find?, hx, hy]
      · simp [List.find?, hx, hy]
  | trans h1 h2 ih1 ih2 =>
      intro hnd k
      rw [ih1 hnd k]
      have hnd2 : _ := ((h1.map Prod.fst).nodup_iff).mp hnd
      exact ih2 hnd2 k

theorem CEntries.lookup_eq_find? : ∀ (es : CEntries) (k : String),
    es.lookup k = (es.toList.find? (fun p => decide (p.fst = k))).map Prod.snd
  | CEntries.nil, _ => rfl
  | CEntries.cons k0 v rest, k => by
      simp only [CEntries.lookup, CEntries.toList]
      by_cases h0 : k0 = k
      · simp [List.find?, h0]
      · simpa [List.find?, h0] using CEntries.lookup_eq_find? rest k

/-- Lookup in the canonical form of a mapping returns the canonical form of
the raw lookup, provided the keys are unique. -/
theorem lookup_norm_mapping (es : CEntries) (k : String)
    (hnd : es.keys.Nodup) :
    (CEntries.ofList (List.insertionSort entryLE (CEntries.toList es.norm))).lookup k =
      Option.map CNode.norm (es.lookup k) := by
  rw [CEntries.lookup_eq_find?, CEntries.toList_ofList]
  have hperm : (List.insertionSort entryLE es.norm.toList).Perm es.norm.toList :=
    List.perm_insertionSort entryLE es.norm.toList
  have hndn : (es.norm.toList.map Prod.fst).Nodup := by
    rw [CEntries.toList_norm]
    have : (es.toList.map (fun p => (p.fst, p.snd.norm))).map Prod.fst =
        es.toList.map Prod.fst := by
      rw [List.map_map]
      rfl
    rw [this]
    exact hnd
  have hnds : ((List.insertionSort entryLE es.norm.toList).map Prod.fst).Nodup :=
    ((hperm.map Prod.fst).nodup_iff).mpr hndn
  rw [find?_perm_nodup hperm hnds k]
  rw [CEntries.toList_norm, find?_map_norm, CEntries.lookup_eq_find?]
  generalize List.find? (fun p => decide (p.fst = k)) es.toList = o
  cases o <;> rfl

theorem keys_ofList_sort (es : CEntries) :
    (CEntries.ofList (List.insertionSort entryLE (CEntries.toList es.norm))).keys.Nodup ↔
      es.keys.Nodup := by
  unfold CEntries.keys
  rw [CEntries.toList_ofList]
  have hperm : ((List.insertionSort entryLE es.norm.toList).map Prod.fst).Perm
      (es.norm.toList.map Prod.fst) :=
    (List.perm_insertionSort entryLE es.norm.toList).map Prod.fst
  rw [hperm.nodup_iff, CEntries.toList_norm, List.map_map]
  rfl

mutual

theorem CNode.wfK_norm : ∀ c : CNode, c.norm.wfK = c.wfK
  | CNode.scalar v => rfl
  | CNode.seq items => by
      simp only [CNode.norm, CNode.wfK]
      exact CNodes.wfK_norm_items items
  | CNode.mapping es => by
      simp only [CNode.norm, CNode.wfK]
      have hkeys : decide (CEntries.ofList (List.insertionSort entryLE
          (CEntries.toList es.norm))).keys.Nodup = decide es.keys.Nodup :=
        by rw [Bool.decide_congr (keys_ofList_sort es)]
      rw [hkeys]
      have hvals : (CEntries.ofList (List.insertionSort entryLE
          (CEntries.toList es.norm))).wfK = es.wfK := by
        rw [CEntries.wfK_eq_all, CEntries.toList_ofList,
          perm_all_eq (List.perm_insertionSort entryLE es.norm.toList),
          ← CEntries.wfK_eq_all]
        exact CEntries.wfK_norm_entries es
      rw [hvals]

theorem CNodes.wfK_norm_items : ∀ items : CNodes, items.norm.wfK = items.wfK
  | CNodes.nil => rfl
  | CNodes.cons h t => by
      simp only [CNodes.norm, CNodes.wfK]
      rw [CNode.wfK_norm h, CNodes.wfK_norm_items t]

theorem CEntries.wfK_norm_entries : ∀ es : CEntries, es.norm.wfK = es.wfK
  | CEntries.nil => rfl
  | CEntries.cons k v rest => by
      simp only [CEntries.norm, CEntries.wfK]
      rw [CNode.wfK_norm v, CEntries.wfK_norm_entries rest]

end

mutual

theorem CNode.allDet_norm : ∀ (env : EvalEnv) (c : CNode), c.wfK = true →
    c.norm.allDet env = c.allDet env
  | env, CNode.scalar v, _ => rfl
  | env, CNode.seq items, h => by
      simp only [CNode.norm, CNode.allDet]
      exact CNodes.allDet_norm_items env items (by simpa [CNode.wfK] using h)
  | env, CNode.mapping es, h => by
      simp only [CNode.wfK, Bool.and_eq_true, decide_eq_true_eq] at h
      simp only [CNode.norm, CNode.allDet]
      have htl := lookup_norm_mapping es "_target_" h.1
      rw [htl]
      have hvals : (CEntries.ofList (List.insertionSort entryLE
          (CEntries.toList es.norm))).allDet env = es.allDet env := by
        rw [CEntries.allDet_eq_all, CEntries.toList_ofList,
          perm_all_eq (List.perm_insertionSort entryLE es.norm.toList),
          ← CEntries.allDet_eq_all]
        exact CEntries.allDet_norm_entries env es h.2
      rw [hvals]
      rcases hl : es.lookup "_target_" with - | tv
      · rfl
      · rcases tv with v | its | ies
        · cases v <;> rfl
        · rfl
        · rfl

theorem CNodes.allDet_norm_items : ∀ (env : EvalEnv) (items : CNodes), items.wfK = true →
    items.norm.allDet env = items.allDet env
  | env, CNodes.nil, _ => rfl
  | env, CNodes.cons h t, hw => by
      simp only [CNodes.wfK, Bool.and_eq_true] at hw
      simp only [CNodes.norm, CNodes.allDet]
      rw [CNode.allDet_norm env h hw.1, CNodes.allDet_norm_items env t hw.2]

theorem CEntries.allDet_norm_entries : ∀ (env : EvalEnv) (es : CEntries), es.wfK = true →
    es.norm.allDet env = es.allDet env
  | env, CEntries.nil, _ => rfl
  | env, CEntries.cons k v rest, hw => by
      simp only [CEntries.wfK, Bool.and_eq_true] at hw
      simp only [CEntries.norm, CEntries.allDet]
      rw [CNode.allDet_norm env v hw.1, CEntries.allDet_norm_entries env rest hw.2]

end

/-- Determinism soundness of a cache state: every entry whose key is, up to
the structural key equality, a marker-free well-formed fully deterministic
configuration stores clean metadata: not_deterministic false and no
substitute. -/
def cacheDetOK (env : EvalEnv) (st : EvalState) : Prop :=
  ∀ p ∈ cacheList st, p.fst.norm.hasRH = false → p.fst.norm.wfK = true →
    p.fst.norm.allDet env = true →
    p.snd.info.not_deterministic = false ∧
    p.snd.info.deterministic_config = Option.none

theorem cacheSet_mem_norm : ∀ (c : Cache) (key : CNode) (v : InstantiatedNode)
    (p : CNode × InstantiatedNode), p ∈ cacheSet c key v →
    (p.snd = v ∧ p.fst.norm = key.norm) ∨ p ∈ c
  | [], key, v, p, h => by
      simp only [cacheSet, List.mem_singleton] at h
      left
      rw [h]
      exact ⟨rfl, rfl⟩
  | (k0, v0) :: rest, key, v, p, h => by
      simp only [cacheSet] at h
      by_cases h0 : cnKeyEq k0 key = true
      · rw [if_pos h0] at h
        rcases List.mem_cons.mp h with h1 | h1
        · left
          rw [h1]
          exact ⟨rfl, cnKeyEq_iff.mp h0⟩
        · right; exact List.mem_cons_of_mem _ h1
      · rw [if_neg h0] at h
        rcases List.mem_cons.mp h with h1 | h1
        · right; rw [h1]; exact List.mem_cons_self _ _
        · rcases cacheSet_mem_norm rest key v p h1 with h2 | h2
          · left; exact h2
          · right; exact List.mem_cons_of_mem _ h2

theorem cacheDetOK_congr {env : EvalEnv} {st st' : EvalState}
    (h : st'.cache = st.cache) (hok : cacheDetOK env st) : cacheDetOK env st' := by
  simp only [cacheDetOK, cacheList, h]
  exact fun p hp => hok p (by simpa only [cacheDetOK, cacheList] using hp)

theorem cache_write_step_detOK (env : EvalEnv) (st : EvalState) (ck node : CNode)
    (result : InstantiatedNode) (hok : cacheDetOK env st)
    (hck : ck.norm.hasRH = false → ck.norm.wfK = true → ck.norm.allDet env = true →
      result.info.not_deterministic = false ∧
      result.info.deterministic_config = Option.none)
    (hng : node.norm.hasRH = false → node.norm.wfK = true →
      node.norm.allDet env = true → cnKeyEq ck node = false → False) :
    cacheDetOK env (cache_write_step st ck node result) := by
  simp only [cache_write_step]
  rcases hc : st.cache with - | c
  · simpa [hc] using hok
  · have hokc : ∀ p ∈ c, p.fst.norm.hasRH = false → p.fst.norm.wfK = true →
        p.fst.norm.allDet env = true →
        p.snd.info.not_deterministic = false ∧
        p.snd.info.deterministic_config = Option.none := by
      intro p hp
      exact hok p (by simp [cacheList, hc, hp])
    by_cases hcr : result.info.cache_result = true
    · simp only [hcr, if_true]
      by_cases hk : cnKeyEq ck node = true
      · simp only [hk, if_true]
        intro p hp hrh hwf hdet
        simp only [cacheList] at hp
        rcases cacheSet_mem_norm c ck result p hp with ⟨hv, hkey⟩ | h
        · rw [hkey] at hrh hwf hdet
          rw [hv]
          exact hck hrh hwf hdet
        · exact hokc p h hrh hwf hdet
      · rw [if_neg hk]
        intro p hp hrh hwf hdet
        simp only [cacheList] at hp
        rcases cacheSet_mem_norm _ node _ p hp with ⟨hv, hkey⟩ | h
        · exfalso
          rw [hkey] at hrh hwf hdet
          exact hng hrh hwf hdet (bool_eq_false_of_not hk)
        · rcases cacheSet_mem_norm c ck result p h with ⟨hv, hkey⟩ | h2
          · rw [hkey] at hrh hwf hdet
            rw [hv]
            exact hck hrh hwf hdet
          · exact hokc p h2 hrh hwf hdet
    · simp only [Bool.not_eq_true] at hcr
      simpa [hcr, hc] using hok

/-- Transfer of the three guards between a tree and its canonical form. -/
theorem guards_norm_iff (env : EvalEnv) (node : CNode) :
    (node.norm.hasRH = false ∧ node.norm.wfK = true ∧ node.norm.allDet env = true) ↔
      (node.hasRH = false ∧ node.wfK = true ∧ node.allDet env = true) := by
  constructor
  · intro ⟨h1, h2, h3⟩
    have hw : node.wfK = true := by rw [← CNode.wfK_norm]; exact h2
    refine ⟨by rw [← CNode.hasRH_norm]; exact h1, hw, ?_⟩
    rw [← CNode.allDet_norm env node hw]
    exact h3
  · intro ⟨h1, h2, h3⟩
    have hw : node.norm.wfK = true := by rw [CNode.wfK_norm]; exact h2
    refine ⟨by rw [CNode.hasRH_norm]; exact h1, hw, ?_⟩
    rw [CNode.allDet_norm env node h2]
    exact h3

theorem finish_call_det (env : EvalEnv) (args : List Value) (node : CNode)
    (tname : String) (td : TargetDef) (target_info : InstantiatedNodeInfo)
    (kwargs : List (String × Value)) (infos : List (CKey × InstantiatedNodeInfo))
    (st1 : EvalState) (hDet : cacheDetOK env st1)
    (hinfosRH : ∀ p ∈ infos, ∀ d, p.snd.deterministic_config = Option.some d →
      d.hasRH = true)
    (hfit : ∀ p ∈ infos, keyFits p.fst node)
    (hti : target_info.not_deterministic = td.funcInfo.not_deterministic)
    (hng : node.hasRH = false → node.wfK = true → node.allDet env = true →
      td.funcInfo.not_deterministic = false ∧
      (InstantiatedNodeInfo.combine infos (Option.some node) (Option.some target_info)
        Option.none).deterministic_config = Option.none) :
    cacheDetOK env (finish_call args node tname td target_info kwargs infos st1).snd ∧
    (node.hasRH = false → node.wfK = true → node.allDet env = true →
      ∀ x, (finish_call args node tname td target_info kwargs infos st1).fst =
        Except.ok x →
      x.info.not_deterministic = false ∧
      x.info.deterministic_config = Option.none) := by
  have hngN : node.norm.hasRH = false → node.norm.wfK = true →
      node.norm.allDet env = true →
      td.funcInfo.not_deterministic = false ∧
      (InstantiatedNodeInfo.combine infos (Option.some node) (Option.some target_info)
        Option.none).deterministic_config = Option.none := by
    intro h1 h2 h3
    obtain ⟨g1, g2, g3⟩ := (guards_norm_iff env node).mp ⟨h1, h2, h3⟩
    exact hng g1 g2 g3
  by_cases hnd : td.funcInfo.not_deterministic = true
  · rcases hrun : td.run args kwargs with e | v
    · rw [finish_call_eq_nd_err hnd hrun]
      refine ⟨cacheDetOK_congr rfl hDet, ?_⟩
      intro _ _ _ x hx
      cases hx
    · rw [finish_call_eq_nd_ok hnd hrun]
      dsimp only
      constructor
      · refine cache_write_step_detOK env _ node node _ (cacheDetOK_congr rfl hDet) ?_ ?_
        · intro h1 h2 h3
          exfalso
          rw [(hngN h1 h2 h3).1] at hnd
          cases hnd
        · intro _ _ _ hfalse
          rw [cnKeyEq_refl node] at hfalse
          cases hfalse
      · intro g1 g2 g3 x hx
        exfalso
        rw [(hng g1 g2 g3).1] at hnd
        cases hnd
  · have hndf : td.funcInfo.not_deterministic = false := bool_eq_false_of_not hnd
    rcases hdc : (InstantiatedNodeInfo.combine infos (Option.some node)
        (Option.some target_info) Option.none).deterministic_config with - | dcfg
    · rcases hrun : td.run args kwargs with e | v
      · rw [finish_call_eq_det_nodc_err hndf hdc hrun]
        refine ⟨cacheDetOK_congr rfl hDet, ?_⟩
        intro _ _ _ x hx
        cases hx
      · rw [finish_call_eq_det_nodc_ok hndf hdc hrun]
        dsimp only
        have hclean : ({ InstantiatedNodeInfo.combine infos (Option.some node)
            (Option.some target_info) Option.none with
            time_target := Option.some 0 } : InstantiatedNodeInfo).not_deterministic =
              false ∧
            ({ InstantiatedNodeInfo.combine infos (Option.some node)
            (Option.some target_info) Option.none with
            time_target := Option.some 0 } : InstantiatedNodeInfo).deterministic_config =
              Option.none := by
          constructor
          · rw [show ({ InstantiatedNodeInfo.combine infos (Option.some node)
              (Option.some target_info) Option.none with
              time_target := Option.some 0 } : InstantiatedNodeInfo).not_deterministic =
              (InstantiatedNodeInfo.combine infos (Option.some node)
                (Option.some target_info) Option.none).not_deterministic from rfl]
            rw [combine_not_deterministic]
            show target_info.not_deterministic = false
            rw [hti]
            exact hndf
          · rw [show ({ InstantiatedNodeInfo.combine infos (Option.some node)
              (Option.some target_info) Option.none with
              time_target := Option.some 0 } : InstantiatedNodeInfo).deterministic_config =
              (InstantiatedNodeInfo.combine infos (Option.some node)
                (Option.some target_info) Option.none).deterministic_config from rfl]
            exact hdc
        constructor
        · refine cache_write_step_detOK env _ node node _ (cacheDetOK_congr rfl hDet) ?_ ?_
          · intro _ _ _
            exact hclean
          · intro _ _ _ hfalse
            rw [cnKeyEq_refl node] at hfalse
            cases hfalse
        · intro _ _ _ x hx
          cases hx
          exact hclean
    · have hdcRH : dcfg.hasRH = true :=
        combine_dc_RH infos node (Option.some target_info) hinfosRH hfit dcfg hdc
      have hdcNg : ∀ a3 : node.norm.hasRH = false, node.norm.wfK = true →
          node.norm.allDet env = true → False := by
        intro h1 h2 h3
        have := (hngN h1 h2 h3).2
        rw [hdc] at this
        cases this
      rcases hhit : findSt st1 dcfg with - | rstored
      · rcases hrun : td.run args kwargs with e | v
        · rw [finish_call_eq_det_submiss_err hndf hdc hhit hrun]
          refine ⟨cacheDetOK_congr rfl hDet, ?_⟩
          intro _ _ _ x hx
          cases hx
        · rw [finish_call_eq_det_submiss_ok hndf hdc hhit hrun]
          dsimp only
          constructor
          · refine cache_write_step_detOK env _ dcfg node _ (cacheDetOK_congr rfl hDet)
              ?_ ?_
            · intro h1 _ _
              exfalso
              rw [CNode.hasRH_norm, hdcRH] at h1
              cases h1
            · intro h1 h2 h3 _
              exact hdcNg h1 h2 h3
          · intro g1 g2 g3 x hx
            exfalso
            exact hdcNg (by rw [CNode.hasRH_norm]; exact g1)
              (by rw [CNode.wfK_norm]; exact g2)
              (by rw [CNode.allDet_norm env node g2]; exact g3)
      · rw [finish_call_eq_det_subhit hndf hdc hhit]
        refine ⟨hDet, ?_⟩
        intro g1 g2 g3 x hx
        exfalso
        exact hdcNg (by rw [CNode.hasRH_norm]; exact g1)
          (by rw [CNode.wfK_norm]; exact g2)
          (by rw [CNode.allDet_norm env node g2]; exact g3)

theorem cacheFind_mem_norm : ∀ (c : Cache) (k : CNode) (v : InstantiatedNode),
    cacheFind c k = Option.some v → ∃ k0, (k0, v) ∈ c ∧ k0.norm = k.norm
  | [], k, v, h => by simp [cacheFind] at h
  | (k0, v0) :: rest, k, v, h => by
      simp only [cacheFind] at h
      by_cases h0 : cnKeyEq k0 k = true
      · rw [if_pos h0] at h
        simp only [Option.some.injEq] at h
        exact ⟨k0, by rw [h]; exact List.mem_cons_self _ _, cnKeyEq_iff.mp h0⟩
      · rw [if_neg h0] at h
        obtain ⟨k1, hk1, hk1n⟩ := cacheFind_mem_norm rest k v h
        exact ⟨k1, List.mem_cons_of_mem _ hk1, hk1n⟩

/-- Bundle of facts established by the determinism induction for the
evaluation of a single node: determinism soundness of the cache is
preserved, and the result of evaluating a marker-free well-formed fully
deterministic tree carries clean metadata. -/
def DetNodeProp (env : EvalEnv) (node : CNode)
    (r : Except EvalError InstantiatedNode × EvalState) : Prop :=
  cacheDetOK env r.snd ∧
  (node.hasRH = false → node.wfK = true → node.allDet env = true →
    ∀ x, r.fst = Except.ok x →
      x.info.not_deterministic = false ∧ x.info.deterministic_config = Option.none)

mutual

theorem instantiate_node_det : ∀ (env : EvalEnv) (args : List Value)
    (convert : ConvertMode) (recursive : Bool) (node : CNode) (st : EvalState),
    cacheRH st → cacheDetOK env st →
    DetNodeProp env node (instantiate_node env args convert recursive node st)
  | env, args, convert, recursive, CNode.scalar v, st, hRH, hDet => by
      unfold DetNodeProp
      rw [instantiate_node_eq_scalar]
      refine ⟨hDet, ?_⟩
      intro _ _ _ x hx
      cases hx
      exact ⟨rfl, rfl⟩
  | env, args, convert, recursive, CNode.seq items, st, hRH, hDet => by
      unfold DetNodeProp
      rw [instantiate_node_eq_seq]
      have IH := instantiate_items_det env convert recursive items st hRH hDet
      rcases hI : instantiate_items env convert recursive items st with ⟨res, st1⟩
      rw [hI] at IH
      cases res with
      | error e =>
          dsimp only
          refine ⟨IH.1, ?_⟩
          intro _ _ _ x hx
          cases hx
      | ok rs =>
          dsimp only
          refine ⟨IH.1, ?_⟩
          intro g1 g2 g3 x hx
          cases hx
          constructor
          · rw [show (InstantiatedNodeInfo.combine (enumInfos rs 0)
              (Option.some (CNode.seq items)) Option.none
              Option.none).not_deterministic = false from
                by rw [combine_not_deterministic]]
          · refine combine_dc_none_of_children (enumInfos rs 0)
              (Option.some (CNode.seq items)) Option.none ?_
            intro p hp
            obtain ⟨⟨x2, hx2, hsnd⟩, -⟩ := enumInfos_mem rs 0 p hp
            rw [hsnd]
            exact (IH.2 (by simpa [CNode.hasRH] using g1)
              (by simpa [CNode.wfK] using g2)
              (by simpa [CNode.allDet] using g3) rs rfl x2 hx2).2
  | env, args, convert, recursive, CNode.mapping entries, st, hRH, hDet => by
      unfold DetNodeProp
      rcases hrec : readRecursive entries recursive with e | rec1
      · rw [instantiate_node_eq_rec_err env args convert recursive entries st e hrec]
        refine ⟨hDet, ?_⟩
        intro _ _ _ x hx
        cases hx
      · by_cases htgt : entries.hasKey "_target_" = true
        · rcases hfind : findSt st (CNode.mapping entries) with - | r
          · rcases hl : entries.lookup "_target_" with - | tv
            · exfalso
              simp [CEntries.hasKey, hl] at htgt
            · by_cases hst : isStringTarget (entries.lookup "_target_") = true
              · obtain ⟨tname, htl⟩ := isStringTarget_eq_true hst
                rcases henv : env.resolve tname with - | td
                · rw [instantiate_node_eq_unresolved env args convert recursive entries
                    st rec1 tname hrec htl hfind henv]
                  refine ⟨hDet, ?_⟩
                  intro _ _ _ x hx
                  cases hx
                · have IHkwRH := instantiate_kwargs_master env
                    (effective_convert entries convert) rec1 entries st hRH
                  have IHkw := instantiate_kwargs_det env
                    (effective_convert entries convert) rec1 entries st hRH hDet
                  rcases hkw : instantiate_kwargs env (effective_convert entries convert)
                      rec1 entries st with ⟨kres, st1⟩
                  rw [hkw] at IHkwRH IHkw
                  cases kres with
                  | error e =>
                      rw [instantiate_node_eq_call_kwargs_err env args convert recursive
                        entries st rec1 tname td e st1 hrec htl hfind henv hkw]
                      refine ⟨IHkw.1, ?_⟩
                      intro _ _ _ x hx
                      cases hx
                  | ok out =>
                      rcases out with ⟨kwargs, infos⟩
                      rw [instantiate_node_eq_call env args convert recursive entries st
                        rec1 tname td kwargs infos st1 hrec htl hfind henv hkw]
                      have hinfosRH : ∀ p ∈ infos, ∀ d,
                          p.snd.deterministic_config = Option.some d → d.hasRH = true :=
                        fun p hp => (IHkwRH.2 (kwargs, infos) rfl p hp).1
                      have hfit : ∀ p ∈ infos, keyFits p.fst (CNode.mapping entries) := by
                        intro p hp
                        obtain ⟨s, hs⟩ := (IHkwRH.2 (kwargs, infos) rfl p hp).2
                        rw [hs]
                        show True
                        trivial
                      have hng : (CNode.mapping entries).hasRH = false →
                          (CNode.mapping entries).wfK = true →
                          (CNode.mapping entries).allDet env = true →
                          td.funcInfo.not_deterministic = false ∧
                          (InstantiatedNodeInfo.combine infos
                            (Option.some (CNode.mapping entries))
                            (Option.some
                              { not_deterministic := td.funcInfo.not_deterministic,
                                cache_result := read_cache_result_flag entries })
                            Option.none).deterministic_config = Option.none := by
                        intro g1 g2 g3
                        simp only [CNode.allDet, Bool.and_eq_true] at g3
                        have g3t := g3.1
                        simp only [htl, henv] at g3t
                        have hndet : td.funcInfo.not_deterministic = false := by
                          simpa using g3t
                        refine ⟨hndet, ?_⟩
                        refine combine_dc_none_of_children infos _ _ ?_
                        intro p hp
                        exact IHkw.2 (by simpa [CNode.hasRH] using g1)
                          (by simp only [CNode.wfK, Bool.and_eq_true] at g2; exact g2.2)
                          g3.2 (kwargs, infos) rfl p hp
                      have FCD := finish_call_det env args (CNode.mapping entries) tname
                        td
                        { not_deterministic := td.funcInfo.not_deterministic,
                          cache_result := read_cache_result_flag entries }
                        kwargs infos st1 IHkw.1 hinfosRH hfit rfl hng
                      exact ⟨FCD.1, fun g1 g2 g3 => FCD.2 g1 g2 g3⟩
              · have hbad : isStringTarget (entries.lookup "_target_") = false :=
                  bool_eq_false_of_not hst
                rw [instantiate_node_eq_badtarget env args convert recursive entries st
                  rec1 hrec htgt hbad hfind]
                refine ⟨hDet, ?_⟩
                intro _ _ _ x hx
                cases hx
          · rw [instantiate_node_eq_hit env args convert recursive entries st rec1 r
              hrec htgt hfind]
            refine ⟨hDet, ?_⟩
            intro g1 g2 g3 x hx
            cases hx
            rcases hcc : st.cache with - | c
            · simp only [findSt, hcc] at hfind
              exact Option.noConfusion hfind
            · simp only [findSt, hcc] at hfind
              obtain ⟨k0, hk0, hk0n⟩ := cacheFind_mem_norm c (CNode.mapping entries) r
                hfind
              obtain ⟨n1, n2, n3⟩ := (guards_norm_iff env (CNode.mapping entries)).mpr
                ⟨g1, g2, g3⟩
              refine hDet (k0, r) (by simpa only [cacheList, hcc] using hk0) ?_ ?_ ?_
              · rw [hk0n]; exact n1
              · rw [hk0n]; exact n2
              · rw [hk0n]; exact n3
        · have htgtf : entries.hasKey "_target_" = false := bool_eq_false_of_not htgt
          rw [instantiate_node_eq_plain env args convert recursive entries st rec1
            hrec htgtf]
          have IHe := instantiate_entries_det env (effective_convert entries convert)
            rec1 entries st hRH hDet
          rcases hE : instantiate_entries env (effective_convert entries convert) rec1
              entries st with ⟨res, st1⟩
          rw [hE] at IHe
          cases res with
          | error e =>
              dsimp only
              refine ⟨IHe.1, ?_⟩
              intro _ _ _ x hx
              cases hx
          | ok rs =>
              dsimp only
              refine ⟨IHe.1, ?_⟩
              intro g1 g2 g3 x hx
              cases hx
              constructor
              · rw [show (InstantiatedNodeInfo.combine
                  (rs.map (fun p => (CKey.key p.fst, p.snd.info)))
                  (Option.some (CNode.mapping entries)) Option.none
                  Option.none).not_deterministic = false from
                    by rw [combine_not_deterministic]]
              · refine combine_dc_none_of_children _ _ _ ?_
                intro p hp
                obtain ⟨q, hq, hqe⟩ := List.mem_map.mp hp
                rw [← hqe]
                refine (IHe.2 (by simpa [CNode.hasRH] using g1) ?_ ?_ rs rfl q hq).2
                · simp only [CNode.wfK, Bool.and_eq_true] at g2
                  exact g2.2
                · simp only [CNode.allDet, Bool.and_eq_true] at g3
                  exact g3.2

theorem instantiate_items_det : ∀ (env : EvalEnv) (convert : ConvertMode)
    (recursive : Bool) (items : CNodes) (st : EvalState), cacheRH st →
    cacheDetOK env st →
    cacheDetOK env (instantiate_items env convert recursive items st).snd ∧
    (items.hasRH = false → items.wfK = true → items.allDet env = true →
      ∀ rs, (instantiate_items env convert recursive items st).fst = Except.ok rs →
      ∀ x ∈ rs, x.info.not_deterministic = false ∧
        x.info.deterministic_config = Option.none)
  | env, convert, recursive, CNodes.nil, st, hRH, hDet => by
      refine ⟨hDet, ?_⟩
      intro _ _ _ rs hrs
      cases hrs
      exact fun x hx => absurd hx (List.not_mem_nil x)
  | env, convert, recursive, CNodes.cons h t, st, hRH, hDet => by
      simp only [instantiate_items]
      have IHRH := instantiate_node_master env [] convert recursive h st hRH
      have IH1 := instantiate_node_det env [] convert recursive h st hRH hDet
      rcases hN : instantiate_node env [] convert recursive h st with ⟨res1, st1⟩
      rw [hN] at IHRH IH1
      unfold NodeMasterProp at IHRH
      unfold DetNodeProp at IH1
      cases res1 with
      | error e =>
          dsimp only
          refine ⟨IH1.1, ?_⟩
          intro _ _ _ rs hrs
          cases hrs
      | ok r =>
          dsimp only
          have IH2 := instantiate_items_det env convert recursive t st1 IHRH.1 IH1.1
          rcases hT : instantiate_items env convert recursive t st1 with ⟨res2, st2⟩
          rw [hT] at IH2
          cases res2 with
          | error e =>
              dsimp only
              refine ⟨IH2.1, ?_⟩
              intro _ _ _ rs hrs
              cases hrs
          | ok rs =>
              dsimp only
              refine ⟨IH2.1, ?_⟩
              intro g1 g2 g3 rs2 hrs2
              cases hrs2
              have g1c : h.hasRH = false ∧ t.hasRH = false := by
                simpa [CNodes.hasRH] using g1
              simp only [CNodes.wfK, Bool.and_eq_true] at g2
              simp only [CNodes.allDet, Bool.and_eq_true] at g3
              intro x hx
              rcases List.mem_cons.mp hx with hx1 | hx1
              · subst hx1
                exact IH1.2 g1c.1 g2.1 g3.1 x rfl
              · exact IH2.2 g1c.2 g2.2 g3.2 rs rfl x hx1

theorem instantiate_entries_det : ∀ (env : EvalEnv) (convert : ConvertMode)
    (recursive : Bool) (entries : CEntries) (st : EvalState), cacheRH st →
    cacheDetOK env st →
    cacheDetOK env (instantiate_entries env convert recursive entries st).snd ∧
    (entries.hasRH = false → entries.wfK = true → entries.allDet env = true →
      ∀ rs, (instantiate_entries env convert recursive entries st).fst = Except.ok rs →
      ∀ q ∈ rs, q.snd.info.not_deterministic = false ∧
        q.snd.info.deterministic_config = Option.none)
  | env, convert, recursive, CEntries.nil, st, hRH, hDet => by
      refine ⟨hDet, ?_⟩
      intro _ _ _ rs hrs
      cases hrs
      exact fun q hq => absurd hq (List.not_mem_nil q)
  | env, convert, recursive, CEntries.cons k0 v rest, st, hRH, hDet => by
      simp only [instantiate_entries]
      have IHRH := instantiate_node_master env [] convert recursive v st hRH
      have IH1 := instantiate_node_det env [] convert recursive v st hRH hDet
      rcases hN : instantiate_node env [] convert recursive v st with ⟨res1, st1⟩
      rw [hN] at IHRH IH1
      unfold NodeMasterProp at IHRH
      unfold DetNodeProp at IH1
      cases res1 with
      | error e =>
          dsimp only
          refine ⟨IH1.1, ?_⟩
          intro _ _ _ rs hrs
          cases hrs
      | ok r =>
          dsimp only
          have IH2 := instantiate_entries_det env convert recursive rest st1 IHRH.1 IH1.1
          rcases hT : instantiate_entries env convert recursive rest st1 with ⟨res2, st2⟩
          rw [hT] at IH2
          cases res2 with
          | error e =>
              dsimp only
              refine ⟨IH2.1, ?_⟩
              intro _ _ _ rs hrs
              cases hrs
          | ok rs =>
              dsimp only
              refine ⟨IH2.1, ?_⟩
              intro g1 g2 g3 rs2 hrs2
              cases hrs2
              have g1c : (¬k0 = "_result_hash_" ∧ v.hasRH = false) ∧
                  rest.hasRH = false := by
                simpa [CEntries.hasRH] using g1
              simp only [CEntries.wfK, Bool.and_eq_true] at g2
              simp only [CEntries.allDet, Bool.and_eq_true] at g3
              intro q hq
              rcases List.mem_cons.mp hq with hq1 | hq1
              · subst hq1
                exact IH1.2 g1c.1.2 g2.1 g3.1 r rfl
              · exact IH2.2 g1c.2 g2.2 g3.2 rs rfl q hq1

theorem instantiate_kwargs_det : ∀ (env : EvalEnv) (convert : ConvertMode)
    (recursive : Bool) (entries : CEntries) (st : EvalState), cacheRH st →
    cacheDetOK env st →
    cacheDetOK env (instantiate_kwargs env convert recursive entries st).snd ∧
    (entries.hasRH = false → entries.wfK = true → entries.allDet env = true →
      ∀ out, (instantiate_kwargs env convert recursive entries st).fst = Except.ok out →
      ∀ p ∈ out.snd, p.snd.deterministic_config = Option.none)
  | env, convert, recursive, CEntries.nil, st, hRH, hDet => by
      refine ⟨hDet, ?_⟩
      intro _ _ _ out hout
      cases hout
      exact fun p hp => absurd hp (List.not_mem_nil p)
  | env, convert, recursive, CEntries.cons k0 v rest, st, hRH, hDet => by
      simp only [instantiate_kwargs]
      by_cases hex : excludeKeys.contains k0 = true
      · rw [if_pos hex]
        have IH := instantiate_kwargs_det env convert recursive rest st hRH hDet
        refine ⟨IH.1, ?_⟩
        intro g1 g2 g3 out hout
        have g1c : (¬k0 = "_result_hash_" ∧ v.hasRH = false) ∧
            rest.hasRH = false := by
          simpa [CEntries.hasRH] using g1
        simp only [CEntries.wfK, Bool.and_eq_true] at g2
        simp only [CEntries.allDet, Bool.and_eq_true] at g3
        refine IH.2 g1c.2 g2.2 g3.2 out hout
      · rw [if_neg hex]
        by_cases hrec : recursive = true
        · rw [hrec, if_pos rfl]
          have IHRH := instantiate_node_master env [] convert true v st hRH
          have IH1 := instantiate_node_det env [] convert true v st hRH hDet
          rcases hN : instantiate_node env [] convert true v st with ⟨res1, st1⟩
          rw [hN] at IHRH IH1
          unfold NodeMasterProp at IHRH
          unfold DetNodeProp at IH1
          cases res1 with
          | error e =>
              dsimp only
              refine ⟨IH1.1, ?_⟩
              intro _ _ _ out hout
              cases hout
          | ok r =>
              dsimp only
              have IH2 := instantiate_kwargs_det env convert true rest st1 IHRH.1 IH1.1
              rcases hT : instantiate_kwargs env convert true rest st1 with ⟨res2, st2⟩
              rw [hT] at IH2
              cases res2 with
              | error e =>
                  dsimp only
                  refine ⟨IH2.1, ?_⟩
                  intro _ _ _ out hout
                  cases hout
              | ok out2 =>
                  rcases out2 with ⟨kws, infos⟩
                  dsimp only
                  refine ⟨IH2.1, ?_⟩
                  intro g1 g2 g3 out hout
                  cases hout
                  have g1c : (¬k0 = "_result_hash_" ∧ v.hasRH = false) ∧
                      rest.hasRH = false := by
                    simpa [CEntries.hasRH] using g1
                  simp only [CEntries.wfK, Bool.and_eq_true] at g2
                  simp only [CEntries.allDet, Bool.and_eq_true] at g3
                  intro p hp
                  rcases List.mem_cons.mp hp with hp1 | hp1
                  · subst hp1
                    exact (IH1.2 g1c.1.2 g2.1 g3.1 r rfl).2
                  · refine IH2.2 g1c.2 g2.2 g3.2 (kws, infos) rfl p hp1
        · have hrecf : recursive = false := bool_eq_false_of_not hrec
          rw [hrecf, if_neg (by simp)]
          have IH := instantiate_kwargs_det env convert false rest st hRH hDet
          rcases hT : instantiate_kwargs env convert false rest st with ⟨res2, st2⟩
          rw [hT] at IH
          cases res2 with
          | error e =>
              dsimp only
              refine ⟨IH.1, ?_⟩
              intro _ _ _ out hout
              cases hout
          | ok out2 =>
              rcases out2 with ⟨kws, infos⟩
              dsimp only
              refine ⟨IH.1, ?_⟩
              intro g1 g2 g3 out hout
              cases hout
              have g1c : (¬k0 = "_result_hash_" ∧ v.hasRH = false) ∧
                  rest.hasRH = false := by
                simpa [CEntries.hasRH] using g1
              simp only [CEntries.wfK, Bool.and_eq_true] at g2
              simp only [CEntries.allDet, Bool.and_eq_true] at g3
              intro p hp
              refine IH.2 g1c.2 g2.2 g3.2 (kws, infos) rfl p hp

end

/-! ### Concrete evaluation scenarios

Small registries of constructors and configuration trees used to
instantiate the general theorems on concrete runs of the engine. -/

/-- A mapping node from a plain entry list. -/
def mkMap (l : List (String × CNode)) : CNode := CNode.mapping (CEntries.ofList l)

/-- A target-name scalar. -/
def tgt (s : String) : CNode := CNode.scalar (Value.vstr s)

/-- A deterministic constructor that packages its keyword arguments. -/
def consumerTD : TargetDef :=
  { run := fun _ kwargs => Except.ok (Value.vobj "consumer" (VEntries.ofList kwargs)),
    funcInfo := {} }

/-- A non-deterministic constructor returning a fixed value; varying the
value across runs models a source of non-determinism. -/
def randTD (v : Value) : TargetDef :=
  { run := fun _ _ => Except.ok v, funcInfo := { not_deterministic := true } }

/-- A registry with the consumer and two distinct non-deterministic targets
that both produce the value v in the current run. -/
def envEx (v : Value) : EvalEnv :=
  { resolve := fun s =>
      if s = "consumer" then Option.some consumerTD
      else if s = "rand" then Option.some (randTD v)
      else if s = "rand2" then Option.some (randTD v)
      else Option.none }

/-- The registry of the fixed run where rand produces 7. -/
def envT : EvalEnv := envEx (Value.vint 7)

/-- The non-deterministic child Call node. -/
def nodeC : CNode := mkMap [("_target_", tgt "rand")]

/-- A configuration for the same kind of child under a different target. -/
def nodeC2 : CNode := mkMap [("_target_", tgt "rand2")]

/-- The entries of the deterministic parent Call node over nodeC. -/
def entriesP : CEntries :=
  CEntries.ofList [("_target_", tgt "consumer"), ("x", nodeC)]

/-- The deterministic parent Call node whose argument x is the
non-deterministic child nodeC. -/
def nodeP : CNode := CNode.mapping entriesP

/-- The parent with the differently configured child nodeC2. -/
def nodeP2 : CNode := mkMap [("_target_", tgt "consumer"), ("x", nodeC2)]

/-- The initial state: an empty active cache and no constructor calls. -/
def st0 : EvalState := { cache := Option.some [], callLog := [] }

/-- The deterministic substitute key the engine derives for nodeP: the
parent configuration with the child replaced by the result-hash placeholder
of the child's computed value. -/
def pSub (v : Value) : CNode :=
  mkMap [("_target_", tgt "consumer"), ("x", resultHashPlaceholder v)]

/-- A full evaluation of nodeP from the empty cache, with the
non-deterministic child producing v. -/
def run1 (v : Value) : Except EvalError InstantiatedNode × EvalState :=
  instantiate_node (envEx v) [] ConvertMode.mNone true nodeP st0

/-- The instantiated node the child evaluation produces. -/
def childRes (v : Value) : InstantiatedNode :=
  { inst := v,
    info := { not_deterministic := true, cache_result := true,
              deterministic_config := Option.some (resultHashPlaceholder v),
              time_target := Option.some 0 } }

/-- The instantiated node the parent evaluation produces. -/
def pRes (v : Value) : InstantiatedNode :=
  { inst := Value.vobj "consumer"
      (VEntries.cons "x" (convertValue v ConvertMode.mNone) VEntries.nil),
    info := { not_deterministic := false, cache_result := true,
              deterministic_config := Option.some (pSub v),
              time_target := Option.some 0 } }

theorem convertValue_mNone (v : Value) : convertValue v ConvertMode.mNone = v := by
  by_cases h : isCfgContainer v = true <;> simp [convertValue, h]

/-- Characterization of the first run: the child executes and is cached
under its own configuration; the parent executes and is cached once under
the substitute key unchanged and once under its own configuration with
not_deterministic forced. -/
theorem run1_eq (v : Value) : run1 v =
  (Except.ok (pRes v),
   { cache := Option.some [(nodeC, childRes v), (pSub v, pRes v),
       (nodeP, { inst := (pRes v).inst,
                 info := { (pRes v).info with not_deterministic := true } })],
     callLog := [("rand", []),
                 ("consumer", [("x", convertValue v ConvertMode.mNone)])] }) := rfl

/-- The run of the parent variant nodeP2: a differently configured child
producing the same value leads to the same substitute key pSub v. -/
theorem runP2_eq (v : Value) :
    instantiate_node (envEx v) [] ConvertMode.mNone true nodeP2 st0 =
  (Except.ok (pRes v),
   { cache := Option.some [(nodeC2, childRes v), (pSub v, pRes v),
       (nodeP2, { inst := (pRes v).inst,
                  info := { (pRes v).info with not_deterministic := true } })],
     callLog := [("rand2", []),
                 ("consumer", [("x", convertValue v ConvertMode.mNone)])] }) := rfl

/-- The canonical form of the substitute key, explicitly. -/
theorem pSub_norm (v : Value) : (pSub v).norm =
    CNode.mapping (CEntries.cons "_target_" (CNode.scalar (Value.vstr "consumer"))
      (CEntries.cons "x" (CNode.mapping (CEntries.cons "_result_hash_"
        (CNode.scalar (Value.vint (Int.ofNat (Value.encode v)))) CEntries.nil))
        CEntries.nil)) := rfl

/-- Two substitute keys collide exactly when the underlying computed values
coincide: the key is a function of the content hash alone, and the hash is
injective in the model. -/
theorem pSub_inj (v w : Value) : cnKeyEq (pSub v) (pSub w) = true ↔ v = w := by
  constructor
  · intro h
    have h2 := cnKeyEq_iff.mp h
    rw [pSub_norm, pSub_norm] at h2
    simp only [CNode.mapping.injEq, CEntries.cons.injEq, CNode.scalar.injEq,
      Value.vint.injEq, Int.ofNat.injEq, true_and, and_true] at h2
    exact Value.encode_inj v w h2
  · intro h
    rw [h]
    exact cnKeyEq_refl (pSub w)

/-- The state restored from the first run by keeping only the entries not
marked non-deterministic (the dump constraint of dumpable.py): exactly the
substitute-keyed entry survives. -/
def restored (v : Value) : EvalState :=
  { cache := Option.some (List.filter (fun p => !p.snd.info.not_deterministic)
      (cacheList (run1 v).snd)),
    callLog := [] }

theorem restored_eq (v : Value) :
    restored v = { cache := Option.some [(pSub v, pRes v)], callLog := [] } := rfl

/-- A second evaluation of nodeP over the restored cache, with the
non-deterministic child now producing w. -/
def rerun (v w : Value) : Except EvalError InstantiatedNode × EvalState :=
  instantiate_node (envEx w) [] ConvertMode.mNone true nodeP (restored v)

/-- The state after the child has been re-evaluated within the rerun. -/
def stMid (v w : Value) : EvalState :=
  { cache := Option.some [(pSub v, pRes v), (nodeC, childRes w)],
    callLog := [("rand", [])] }

theorem rerun_kwargs_eq (v w : Value) :
    instantiate_kwargs (envEx w) ConvertMode.mNone true entriesP (restored v) =
      (Except.ok ([("x", convertValue w ConvertMode.mNone)],
        [(CKey.key "x", (childRes w).info)]), stMid v w) := rfl

/-- Rerun with the child producing the same value: the substitute key hits
the restored entry, and the consumer is not re-invoked. -/
theorem rerun_same_eq (v : Value) :
    rerun v v = (Except.ok (pRes v), stMid v v) := by
  show instantiate_node (envEx v) [] ConvertMode.mNone true (CNode.mapping entriesP)
    (restored v) = _
  rw [instantiate_node_eq_call (envEx v) [] ConvertMode.mNone true entriesP (restored v)
    true "consumer" consumerTD [("x", convertValue v ConvertMode.mNone)]
    [(CKey.key "x", (childRes v).info)] (stMid v v) rfl rfl rfl rfl
    (rerun_kwargs_eq v v)]
  exact finish_call_eq_det_subhit rfl rfl (by
    show (if cnKeyEq (pSub v) (pSub v) = true then Option.some (pRes v)
          else cacheFind [(nodeC, childRes v)] (pSub v)) = Option.some (pRes v)
    rw [if_pos (cnKeyEq_refl (pSub v))])

/-- Rerun with the child producing a value whose substitute key differs:
the substitute misses, and the consumer is re-invoked. -/
theorem rerun_diff_eq (v w : Value) (hne : cnKeyEq (pSub v) (pSub w) = false) :
    (rerun v w).fst = Except.ok (pRes w) ∧
    (rerun v w).snd.callLog =
      [("rand", []), ("consumer", [("x", convertValue w ConvertMode.mNone)])] := by
  have hmiss : findSt (stMid v w) (pSub w) = Option.none := by
    show (if cnKeyEq (pSub v) (pSub w) = true then Option.some (pRes v)
          else cacheFind [(nodeC, childRes w)] (pSub w)) = Option.none
    rw [if_neg (by rw [hne]; exact Bool.false_ne_true)]
    rfl
  have hstep : rerun v w =
      (let st2 : EvalState := { stMid v w with
         callLog := (stMid v w).callLog ++
           [("consumer", [("x", convertValue w ConvertMode.mNone)])] }
       (Except.ok (pRes w), cache_write_step st2 (pSub w) nodeP (pRes w))) := by
    show instantiate_node (envEx w) [] ConvertMode.mNone true (CNode.mapping entriesP)
      (restored v) = _
    rw [instantiate_node_eq_call (envEx w) [] ConvertMode.mNone true entriesP
      (restored v) true "consumer" consumerTD [("x", convertValue w ConvertMode.mNone)]
      [(CKey.key "x", (childRes w).info)] (stMid v w) rfl rfl rfl rfl
      (rerun_kwargs_eq v w)]
    exact finish_call_eq_det_submiss_ok rfl rfl hmiss rfl
  constructor
  · rw [hstep]
  · rw [hstep]
    show (cache_write_step { stMid v w with
        callLog := (stMid v w).callLog ++
          [("consumer", [("x", convertValue w ConvertMode.mNone)])] }
      (pSub w) nodeP (pRes w)).callLog = _
    rw [cache_write_step_callLog]
    rfl

/-- Two sorted entry lists that are permutations of one another and have no
repeated keys are equal: sorting by key is canonical on duplicate-free
mappings. -/
theorem eq_of_perm_sorted_keys : ∀ (l1 l2 : List (String × CNode)), l1.Perm l2 →
    l1.Sorted entryLE → l2.Sorted entryLE → (l1.map Prod.fst).Nodup → l1 = l2
  | [], l2, hp, _, _, _ => hp.nil_eq
  | a :: t1, [], hp, _, _, _ => absurd hp.symm.nil_eq (by simp)
  | a :: t1, b :: t2, hp, hs1, hs2, hnd => by
      by_cases hab : a = b
      · subst hab
        have ht : t1.Perm t2 := hp.cons_inv
        have hnd2 : (t1.map Prod.fst).Nodup := by
          simp only [List.map_cons, List.nodup_cons] at hnd
          exact hnd.2
        rw [eq_of_perm_sorted_keys t1 t2 ht hs1.of_cons hs2.of_cons hnd2]
      · exfalso
        have ha2 : a ∈ t2 := by
          have hmem : a ∈ b :: t2 := hp.mem_iff.mp (List.mem_cons_self a t1)
          rcases List.mem_cons.mp hmem with h | h
          · exact absurd h hab
          · exact h
        have hb1 : b ∈ t1 := by
          have hmem : b ∈ a :: t1 := hp.mem_iff.mpr (List.mem_cons_self b t2)
          rcases List.mem_cons.mp hmem with h | h
          · exact absurd h.symm hab
          · exact h
        have h1 : entryLE a b := List.rel_of_sorted_cons hs1 b hb1
        have h2 : entryLE b a := List.rel_of_sorted_cons hs2 a ha2
        have hk : a.fst = b.fst := strLe_antisymm h1 h2
        have hmemk : a.fst ∈ t1.map Prod.fst := by
          rw [hk]
          exact List.mem_map_of_mem Prod.fst hb1
        simp only [List.map_cons, List.nodup_cons] at hnd
        exact hnd.1 hmemk

/-- Mapping key insertion order does not affect the cache key equality: two
mappings built from permuted entry lists with no repeated keys compare
equal. -/
theorem mapping_perm_keyEq (l1 l2 : List (String × CNode)) (hperm : l1.Perm l2)
    (hnd : (l1.map Prod.fst).Nodup) :
    cnKeyEq (CNode.mapping (CEntries.ofList l1))
      (CNode.mapping (CEntries.ofList l2)) = true := by
  rw [cnKeyEq_iff]
  show CNode.mapping (CEntries.ofList (List.insertionSort entryLE
      (CEntries.toList (CEntries.ofList l1).norm))) = CNode.mapping (CEntries.ofList
      (List.insertionSort entryLE (CEntries.toList (CEntries.ofList l2).norm)))
  have h1 : (CEntries.ofList l1).norm.toList = l1.map (fun p => (p.fst, p.snd.norm)) := by
    rw [CEntries.toList_norm, CEntries.toList_ofList]
  have h2 : (CEntries.ofList l2).norm.toList = l2.map (fun p => (p.fst, p.snd.norm)) := by
    rw [CEntries.toList_norm, CEntries.toList_ofList]
  rw [h1, h2]
  have hpm : (l1.map (fun p => (p.fst, p.snd.norm))).Perm
      (l2.map (fun p => (p.fst, p.snd.norm))) := hperm.map _
  have hps1 := List.perm_insertionSort entryLE (l1.map (fun p => (p.fst, p.snd.norm)))
  have hps2 := List.perm_insertionSort entryLE (l2.map (fun p => (p.fst, p.snd.norm)))
  have hkeys : (l1.map (fun p => (p.fst, p.snd.norm))).map Prod.fst = l1.map Prod.fst := by
    rw [List.map_map]
    rfl
  have hnds : ((List.insertionSort entryLE
      (l1.map (fun p => (p.fst, p.snd.norm)))).map Prod.fst).Nodup := by
    refine ((hps1.map Prod.fst).nodup_iff).mpr ?_
    rw [hkeys]
    exact hnd
  rw [eq_of_perm_sorted_keys _ _ (hps1.trans (hpm.trans hps2.symm))
    (List.sorted_insertionSort entryLE _) (List.sorted_insertionSort entryLE _) hnds]

/-- With the recursive flag off, argument evaluation collects no child
metadata, never fails and leaves the state untouched: the values are passed
through raw (hydra.py lines 193 to 201 with recursive false). -/
theorem instantiate_kwargs_nonrec : ∀ (env : EvalEnv) (convert : ConvertMode)
    (entries : CEntries) (st : EvalState), ∃ kws,
    instantiate_kwargs env convert false entries st = (Except.ok (kws, []), st)
  | env, convert, CEntries.nil, st => ⟨[], rfl⟩
  | env, convert, CEntries.cons k v rest, st => by
      obtain ⟨kws, hk⟩ := instantiate_kwargs_nonrec env convert rest st
      by_cases hex : excludeKeys.contains k = true
      · refine ⟨kws, ?_⟩
        simp only [instantiate_kwargs, hex, if_true, hk]
      · refine ⟨(k, convertValue v.toValue convert) :: kws, ?_⟩
        simp only [instantiate_kwargs, hex, Bool.false_eq_true, if_false, hk]

/-- A deterministic constructor returning a fixed value. -/
def detTD (v : Value) : TargetDef := { run := fun _ _ => Except.ok v, funcInfo := {} }

/-- A constructor that always raises. -/
def boomTD : TargetDef :=
  { run := fun _ _ => Except.error (EvalError.constructionError "boom"),
    funcInfo := {} }

/-- A registry of deterministic targets for the nested determinism run. -/
def envDet : EvalEnv :=
  { resolve := fun s =>
      if s = "consumer" then Option.some consumerTD
      else if s = "mk" then Option.some (detTD (Value.vint 1))
      else Option.none }

/-- A two-level fully deterministic configuration. -/
def nodeD : CNode :=
  mkMap [("_target_", tgt "consumer"), ("x", mkMap [("_target_", tgt "mk")])]

/-- A registry for the cache_result propagation run. -/
def envC5 : EvalEnv :=
  { resolve := fun s =>
      if s = "consumer" then Option.some consumerTD
      else if s = "det1" then Option.some (detTD (Value.vint 1))
      else if s = "det2" then Option.some (detTD (Value.vint 2))
      else Option.none }

/-- A child Call node opting out of caching through _cache_result_. -/
def nodeB1 : CNode := mkMap [("_target_", tgt "det1"),
  ("_cache_result_", CNode.scalar (Value.vbool false))]

/-- A sibling child Call node that is cached normally. -/
def nodeB2 : CNode := mkMap [("_target_", tgt "det2")]

/-- The parent over the two children of the cache_result scenario. -/
def nodeQ : CNode := mkMap [("_target_", tgt "consumer"), ("a", nodeB1), ("b", nodeB2)]

/-- The cache_result propagation run. -/
def runC5 : Except EvalError InstantiatedNode × EvalState :=
  instantiate_node envC5 [] ConvertMode.mNone true nodeQ st0

/-- A registry with a raising target and a well-behaved sibling. -/
def envC8 : EvalEnv :=
  { resolve := fun s =>
      if s = "consumer" then Option.some consumerTD
      else if s = "good" then Option.some (detTD (Value.vint 3))
      else if s = "boom" then Option.some boomTD
      else Option.none }

/-- The successfully cached sibling of the failing node. -/
def nodeG : CNode := mkMap [("_target_", tgt "good")]

/-- The failing Call node. -/
def nodeBoom : CNode := mkMap [("_target_", tgt "boom")]

/-- A parent whose second argument fails to construct. -/
def nodeR : CNode := mkMap [("_target_", tgt "consumer"), ("a", nodeG), ("b", nodeBoom)]

/-- The failing run. -/
def runC8 : Except EvalError InstantiatedNode × EvalState :=
  instantiate_node envC8 [] ConvertMode.mNone true nodeR st0

/-- A Call node over the non-deterministic target with recursion disabled
and an unevaluated child sub-configuration. -/
def nodeNR : CNode := mkMap [("_target_", tgt "rand"),
  ("_recursive_", CNode.scalar (Value.vbool false)), ("x", nodeC)]

/-! ### The persistable cache dump (caching/dumpable.py) -/

/-- Presence of a file name on the modelled file system. -/
def fsHas (fs : List (String × String)) (name : String) : Bool :=
  fs.any (fun p => p.fst = name)

/-- Content of a file, when present. -/
def fsFind : List (String × String) → String → Option String
  | [], _ => Option.none
  | (n, c) :: rest, name => if n = name then Option.some c else fsFind rest name

/-- File write: replaces the content of an existing name, appends a fresh
file otherwise. -/
def fsWrite : List (String × String) → String → String → List (String × String)
  | [], name, content => [(name, content)]
  | (n, c) :: rest, name, content =>
      if n = name then (n, content) :: rest else (n, c) :: fsWrite rest name content

/-- The serialization externals of the dump: the canonical yaml text of a
key, the content digest of a text, and the pickled bytes of a value
(OmegaConf.to_yaml, joblib.hash and pickle in the source). -/
structure DumpEnv where
  toYaml : CNode → String
  hashStr : String → String
  pickle : InstantiatedNode → String

/-- Skip decision of the constraint predicates: an entry is skipped when
some constraint returns a reason (dumpable.py lines 76 to 85). -/
def constraintSkip (constraints : List (CNode → InstantiatedNode → Option String))
    (k : CNode) (v : InstantiatedNode) : Bool :=
  constraints.any (fun c => (c k v).isSome)

/-- Persisting of one non-skipped entry (dumpable.py lines 86 to 100): the
key text and the value bytes are written as hash-named yaml and pkl files,
unless the yaml file already exists and overwrite is off. -/
def dump_entry (de : DumpEnv) (overwrite : Bool)
    (acc : List (String × String) × Nat) (k : CNode) (v : InstantiatedNode) :
    List (String × String) × Nat :=
  let k_dump := de.toYaml k
  let h := de.hashStr k_dump
  let fn_config := h ++ ".yaml"
  if fsHas acc.fst fn_config && !overwrite then acc
  else
    let fs1 := fsWrite acc.fst fn_config k_dump
    let fs2 := fsWrite fs1 (h ++ ".pkl") (de.pickle v)
    (fs2, acc.snd + 1)

/-- One iteration of the dump loop over a store entry. -/
def dump_step (de : DumpEnv)
    (constraints : List (CNode → InstantiatedNode → Option String)) (overwrite : Bool)
    (acc : List (String × String) × Nat) (p : CNode × InstantiatedNode) :
    List (String × String) × Nat :=
  if constraintSkip constraints p.fst p.snd then acc
  else dump_entry de overwrite acc p.fst p.snd

/-- Translation of DumpableInMemoryCache.dump (dumpable.py lines 61 to
102): the store is traversed in insertion order, each kept entry is
persisted, and the number of entries written is counted for the log; the
Python function ends without a return statement, so its return value,
modelled by the final Option Nat, is always absent. -/
def DumpableInMemoryCache.dump (de : DumpEnv) (store : Cache)
    (constraints : List (CNode → InstantiatedNode → Option String)) (overwrite : Bool)
    (fs0 : List (String × String)) : (List (String × String) × Nat) × Option Nat :=
  (store.foldl (dump_step de constraints overwrite) (fs0, 0), Option.none)

theorem fsFind_fsWrite_eq : ∀ (fs : List (String × String)) (n c : String),
    fsFind (fsWrite fs n c) n = Option.some c
  | [], n, c => by simp [fsWrite, fsFind]
  | (n0, c0) :: rest, n, c => by
      simp only [fsWrite]
      by_cases h : n0 = n
      · rw [if_pos h]
        simp [fsFind, h]
      · rw [if_neg h]
        simp only [fsFind, h, if_false]
        exact fsFind_fsWrite_eq rest n c

theorem fsFind_fsWrite_ne : ∀ (fs : List (String × String)) (n c m : String),
    ¬ n = m → fsFind (fsWrite fs n c) m = fsFind fs m
  | [], n, c, m, h => by simp [fsWrite, fsFind, h]
  | (n0, c0) :: rest, n, c, m, h => by
      simp only [fsWrite]
      by_cases h0 : n0 = n
      · rw [if_pos h0]
        subst h0
        simp [fsFind, h]
      · rw [if_neg h0]
        simp only [fsFind]
        by_cases h0m : n0 = m
        · simp [h0m]
        · simp only [h0m, if_false]
          exact fsFind_fsWrite_ne rest n c m h

theorem yaml_ne_pkl (s : String) : ¬ (s ++ ".yaml") = (s ++ ".pkl") := by
  intro h
  have hlen := congrArg String.length h
  simp [String.length_append] at hlen
  revert hlen
  decide

/-! ### The claims -/

/-- C1 (amended): a Call node found in the active cache returns the cached
instantiated node immediately with the state unchanged, so no child is
evaluated and no constructor runs; the second-evaluation pair, however, is
the stored entry, whose metadata may differ from the first evaluation's
returned pair (see the counterexample). -/
theorem C1_cache_hit_short_circuits (env : EvalEnv) (args : List Value)
    (convert : ConvertMode) (recursive : Bool) (entries : CEntries) (st : EvalState)
    (rec1 : Bool) (r : InstantiatedNode)
    (hrec : readRecursive entries recursive = Except.ok rec1)
    (htgt : entries.hasKey "_target_" = true)
    (hfind : findSt st (CNode.mapping entries) = Option.some r) :
    instantiate_node env args convert recursive (CNode.mapping entries) st =
      (Except.ok r, st) :=
  instantiate_node_eq_hit env args convert recursive entries st rec1 r hrec htgt hfind

theorem C1_witness :
    instantiate_node envT [] ConvertMode.mNone true
        (CNode.mapping (CEntries.ofList [("_target_", tgt "rand")]))
        { cache := Option.some [(nodeC, childRes (Value.vint 7))], callLog := [] } =
      (Except.ok (childRes (Value.vint 7)),
       { cache := Option.some [(nodeC, childRes (Value.vint 7))], callLog := [] }) :=
  C1_cache_hit_short_circuits envT [] ConvertMode.mNone true
    (CEntries.ofList [("_target_", tgt "rand")])
    { cache := Option.some [(nodeC, childRes (Value.vint 7))], callLog := [] }
    true (childRes (Value.vint 7)) (by decide) (by decide) (by decide)

/-- C1 counterexample: after a first full run of nodeP, a second evaluation
over the same cache invokes no constructor (the call log is unchanged) but
returns a pair different from the first run's: the entry stored under the
original node carries not_deterministic forced true. -/
theorem C1_counterexample :
    (instantiate_node envT [] ConvertMode.mNone true nodeP
        (run1 (Value.vint 7)).snd).fst ≠ (run1 (Value.vint 7)).fst ∧
    (instantiate_node envT [] ConvertMode.mNone true nodeP
        (run1 (Value.vint 7)).snd).snd.callLog = (run1 (Value.vint 7)).snd.callLog := by
  decide

/-- C2: for the deterministic parent nodeP over the non-deterministic child
nodeC, the substitute key is pSub of the child's computed value: it agrees
across runs and across differently configured children producing the same
value, two substitute keys collide exactly when the computed values agree,
a rerun over the restored substitute entry with the same child value does
not re-invoke the consumer, and a different child value re-invokes it. -/
theorem C2_substitute_key_stability (v w : Value) :
    ((run1 v).fst = Except.ok (pRes v) ∧
     (pRes v).info.deterministic_config = Option.some (pSub v)) ∧
    ((instantiate_node (envEx v) [] ConvertMode.mNone true nodeP2 st0).fst =
      Except.ok (pRes v)) ∧
    (cnKeyEq (pSub v) (pSub w) = true ↔ v = w) ∧
    ((rerun v v).fst = Except.ok (pRes v) ∧ (rerun v v).snd.callLog = [("rand", [])]) ∧
    (v ≠ w →
      (rerun v w).fst = Except.ok (pRes w) ∧
      (rerun v w).snd.callLog =
        [("rand", []), ("consumer", [("x", convertValue w ConvertMode.mNone)])]) := by
  refine ⟨⟨by rw [run1_eq], rfl⟩, by rw [runP2_eq], pSub_inj v w, ?_, ?_⟩
  · have h := rerun_same_eq v
    exact ⟨by rw [h], by rw [h]; rfl⟩
  · intro hne
    have hkne : cnKeyEq (pSub v) (pSub w) = false := by
      cases hb : cnKeyEq (pSub v) (pSub w)
      · rfl
      · exact absurd ((pSub_inj v w).mp hb) hne
    exact rerun_diff_eq v w hkne

/-- C3 (amended): when caching is on, the combined cache_result is true and
the cache key differs from the node, the entry under the substitute cache
key stores the result unchanged while the entry under the original node
stores the copy whose not_deterministic is forced true; both entries carry
the same computed value (swapped orientation with respect to the claimed
one). -/
theorem C3_dual_write_orientation (st : EvalState) (c : Cache)
    (cache_key node : CNode) (result : InstantiatedNode)
    (hc : st.cache = Option.some c) (hcr : result.info.cache_result = true)
    (hne : cnKeyEq cache_key node = false) :
    findSt (cache_write_step st cache_key node result) cache_key =
      Option.some result ∧
    findSt (cache_write_step st cache_key node result) node =
      Option.some { inst := result.inst,
                    info := { result.info with not_deterministic := true } } := by
  have hne1 : ¬ cnKeyEq cache_key node = true := by
    rw [hne]; exact Bool.false_ne_true
  have hne2 : ¬ cnKeyEq node cache_key = true := by
    intro h
    exact hne1 (cnKeyEq_symm h)
  have hcache : (cache_write_step st cache_key node result).cache =
      Option.some (cacheSet (cacheSet c cache_key result) node
        { inst := result.inst,
          info := { result.info with not_deterministic := true } }) := by
    simp only [cache_write_step, hc, hcr, if_true, hne, Bool.false_eq_true, if_false]
  constructor
  · simp only [findSt, hcache]
    rw [cacheFind_cacheSet_ne _ _ _ _ hne2,
      cacheFind_cacheSet_eq _ _ _ _ (cnKeyEq_refl cache_key)]
  · simp only [findSt, hcache]
    rw [cacheFind_cacheSet_eq _ _ _ _ (cnKeyEq_refl node)]

theorem C3_witness :
    findSt (cache_write_step st0 nodeC nodeG (childRes (Value.vint 7))) nodeC =
      Option.some (childRes (Value.vint 7)) ∧
    findSt (cache_write_step st0 nodeC nodeG (childRes (Value.vint 7))) nodeG =
      Option.some { inst := (childRes (Value.vint 7)).inst,
                    info := { (childRes (Value.vint 7)).info with
                      not_deterministic := true } } :=
  C3_dual_write_orientation st0 [] nodeC nodeG (childRes (Value.vint 7))
    (by decide) (by decide) (by decide)

/-- C3 counterexample: in the run of nodeP the parent result itself has
not_deterministic false, the entry stored under the original node nodeP has
not_deterministic true, and the entry under the substitute key has it
false: the orientation is the opposite of the claimed one. -/
theorem C3_counterexample :
    ((run1 (Value.vint 7)).fst = Except.ok (pRes (Value.vint 7)) ∧
     (pRes (Value.vint 7)).info.not_deterministic = false) ∧
    (findSt (run1 (Value.vint 7)).snd nodeP).map
      (fun r => r.info.not_deterministic) = Option.some true ∧
    (findSt (run1 (Value.vint 7)).snd (pSub (Value.vint 7))).map
      (fun r => r.info.not_deterministic) = Option.some false := by
  decide

/-- C4: the combined not_deterministic equals the target's own flag for a
Call (target_info present) and false otherwise, never inherited from
children; and a marker-free well-keyed node whose targets are all
deterministic evaluates, at any depth, to metadata with not_deterministic
false and no substitute; the nested run nodeD demonstrates the conditions
are satisfiable. -/
theorem C4_not_deterministic_never_inherited :
    (∀ (infos : List (CKey × InstantiatedNodeInfo)) (pc : Option CNode)
        (ti : Option InstantiatedNodeInfo) (dc0 : Option CNode),
      (InstantiatedNodeInfo.combine infos pc ti dc0).not_deterministic =
        (match ti with
         | Option.some t => t.not_deterministic
         | Option.none => false)) ∧
    (∀ (env : EvalEnv) (args : List Value) (convert : ConvertMode) (recursive : Bool)
        (node : CNode) (st : EvalState),
      cacheRH st → cacheDetOK env st → node.hasRH = false → node.wfK = true →
      node.allDet env = true →
      ∀ x, (instantiate_node env args convert recursive node st).fst = Except.ok x →
        x.info.not_deterministic = false ∧
        x.info.deterministic_config = Option.none) ∧
    ((instantiate_node envDet [] ConvertMode.mNone true nodeD st0).fst.map
        (fun x => (x.info.not_deterministic, x.info.deterministic_config)) =
      Except.ok (false, Option.none)) := by
  refine ⟨combine_not_deterministic, ?_, by decide⟩
  intro env args convert recursive node st hRH hDet g1 g2 g3 x hx
  exact (instantiate_node_det env args convert recursive node st hRH hDet).2
    g1 g2 g3 x hx

/-- C5: the combined cache_result is the conjunction of the node's own flag
and every child's flag, a false combined flag suppresses the cache write
entirely, and in the concrete run of nodeQ the child that opted out
poisons the parent (neither is cached) while the well-behaved sibling is
still cached individually. -/
theorem C5_cache_result_conjunction :
    (∀ (infos : List (CKey × InstantiatedNodeInfo)) (pc : Option CNode)
        (ti : Option InstantiatedNodeInfo) (dc0 : Option CNode),
      (InstantiatedNodeInfo.combine infos pc ti dc0).cache_result =
        ((match ti with
          | Option.some t => t.cache_result
          | Option.none => true) && infos.all (fun p => p.snd.cache_result))) ∧
    (∀ (st : EvalState) (ck node : CNode) (r : InstantiatedNode),
      r.info.cache_result = false → cache_write_step st ck node r = st) ∧
    (runC5.fst.map (fun x => x.info.cache_result) = Except.ok false ∧
     findSt runC5.snd nodeQ = Option.none ∧
     findSt runC5.snd nodeB1 = Option.none ∧
     (findSt runC5.snd nodeB2).isSome = true) := by
  exact ⟨combine_cache_result, cache_write_step_skip, by decide⟩

/-- C6: whenever an evaluation starting from an RH-sound cache of a
marker-free node yields metadata carrying a substitute, the substitute
contains the result-hash marker while the node does not, so it is
structurally different from the node and never collides with it as a cache
key. -/
theorem C6_substitute_never_collides (env : EvalEnv) (args : List Value)
    (convert : ConvertMode) (recursive : Bool) (node : CNode) (st : EvalState)
    (hRH : cacheRH st) (hn : node.hasRH = false) :
    ∀ x d, (instantiate_node env args convert recursive node st).fst = Except.ok x →
      x.info.deterministic_config = Option.some d →
      cnKeyEq d node = false ∧ d ≠ node := by
  intro x d hx hd
  have H := instantiate_node_master env args convert recursive node st hRH
  unfold NodeMasterProp at H
  have hdRH : d.hasRH = true := H.2.1 x hx d hd
  refine ⟨bool_eq_false_of_not (cnKeyEq_false_of_hasRH hdRH hn), ?_⟩
  intro heq
  rw [heq, hn] at hdRH
  cases hdRH

theorem C6_witness :
    cnKeyEq (pSub (Value.vint 7)) nodeP = false ∧ pSub (Value.vint 7) ≠ nodeP :=
  C6_substitute_never_collides envT [] ConvertMode.mNone true nodeP st0
    (fun p hp => absurd hp (List.not_mem_nil p)) (by decide)
    (pRes (Value.vint 7)) (pSub (Value.vint 7)) (by decide) (by decide)

/-- C7: the cache key equality is reflexive (total on every tree),
symmetric, transitive and deterministic; the key hash is consistent with
it; mappings built from permuted duplicate-free entry lists compare equal
while sequences differing in element order do not; and two equal keys
share one cache entry. -/
theorem C7_structural_cache_keying :
    (∀ a : CNode, cnKeyEq a a = true) ∧
    (∀ a b : CNode, cnKeyEq a b = cnKeyEq b a) ∧
    (∀ a b c : CNode, cnKeyEq a b = true → cnKeyEq b c = true →
      cnKeyEq a c = true) ∧
    (∀ a b : CNode, cnKeyEq a b = true → cnKeyHash a = cnKeyHash b) ∧
    (∀ (l1 l2 : List (String × CNode)), l1.Perm l2 → (l1.map Prod.fst).Nodup →
      cnKeyEq (CNode.mapping (CEntries.ofList l1))
        (CNode.mapping (CEntries.ofList l2)) = true) ∧
    (cnKeyEq
      (CNode.seq (CNodes.cons (CNode.scalar (Value.vint 1))
        (CNodes.cons (CNode.scalar (Value.vint 2)) CNodes.nil)))
      (CNode.seq (CNodes.cons (CNode.scalar (Value.vint 2))
        (CNodes.cons (CNode.scalar (Value.vint 1)) CNodes.nil))) = false) ∧
    (∀ (c : Cache) (a b : CNode) (r : InstantiatedNode), cnKeyEq a b = true →
      cacheFind (cacheSet c a r) b = Option.some r) := by
  refine ⟨cnKeyEq_refl, ?_, fun a b c h h2 => cnKeyEq_trans h h2, ?_,
    mapping_perm_keyEq, by decide, cacheFind_cacheSet_eq⟩
  · intro a b
    simp only [cnKeyEq]
    exact decide_eq_decide.mpr ⟨Eq.symm, Eq.symm⟩
  · intro a b h
    unfold cnKeyHash
    rw [cnKeyEq_iff.mp h]

/-- C8: a raising constructor either never runs (the substitute was already
cached, the state is untouched) or propagates its error unchanged with only
the invocation logged and the cache exactly as the argument evaluation left
it; an argument-evaluation error likewise propagates through the Call node
unchanged; the concrete failing run keeps the earlier sibling's entry and
caches nothing for the failing node or its parent. -/
theorem C8_construction_error_propagation :
    (∀ (args : List Value) (node : CNode) (tname : String) (td : TargetDef)
        (target_info : InstantiatedNodeInfo) (kwargs : List (String × Value))
        (infos : List (CKey × InstantiatedNodeInfo)) (st1 : EvalState) (e : EvalError),
      td.run args kwargs = Except.error e →
      (∃ r, (finish_call args node tname td target_info kwargs infos st1).fst =
          Except.ok r ∧
        (finish_call args node tname td target_info kwargs infos st1).snd = st1) ∨
      finish_call args node tname td target_info kwargs infos st1 =
        (Except.error e,
         { st1 with callLog := st1.callLog ++ [(tname, kwargs)] })) ∧
    (∀ (env : EvalEnv) (args : List Value) (convert : ConvertMode) (recursive : Bool)
        (entries : CEntries) (st : EvalState) (rec1 : Bool) (tname : String)
        (td : TargetDef) (e : EvalError) (st1 : EvalState),
      readRecursive entries recursive = Except.ok rec1 →
      entries.lookup "_target_" = Option.some (CNode.scalar (Value.vstr tname)) →
      findSt st (CNode.mapping entries) = Option.none →
      env.resolve tname = Option.some td →
      instantiate_kwargs env (effective_convert entries convert) rec1 entries st =
        (Except.error e, st1) →
      instantiate_node env args convert recursive (CNode.mapping entries) st =
        (Except.error e, st1)) ∧
    (runC8.fst = Except.error (EvalError.constructionError "boom") ∧
     (findSt runC8.snd nodeG).isSome = true ∧
     findSt runC8.snd nodeR = Option.none ∧
     findSt runC8.snd nodeBoom = Option.none ∧
     runC8.snd.callLog = [("good", []), ("boom", [])]) := by
  refine ⟨?_, ?_, by decide⟩
  · intro args node tname td ti kwargs infos st1 e hrun
    by_cases hnd : td.funcInfo.not_deterministic = true
    · right
      exact finish_call_eq_nd_err hnd hrun
    · have hndf : td.funcInfo.not_deterministic = false := bool_eq_false_of_not hnd
      rcases hdc : (InstantiatedNodeInfo.combine infos (Option.some node)
          (Option.some ti) Option.none).deterministic_config with - | dcfg
      · right
        exact finish_call_eq_det_nodc_err hndf hdc hrun
      · rcases hhit : findSt st1 dcfg with - | r
        · right
          exact finish_call_eq_det_submiss_err hndf hdc hhit hrun
        · left
          refine ⟨r, ?_, ?_⟩ <;> rw [finish_call_eq_det_subhit hndf hdc hhit]
  · intro env args convert recursive entries st rec1 tname td e st1 hrec htgt
      hmiss hres hkw
    exact instantiate_node_eq_call_kwargs_err env args convert recursive entries st
      rec1 tname td e st1 hrec htgt hmiss hres hkw

/-- C9 (amended): each kept entry is persisted as a hash-named yaml file
holding the serialized key and a hash-named pkl file holding the serialized
value; an entry whose yaml file exists is skipped unless overwrite is on;
constraint-flagged entries are skipped; and dump's return value is always
absent (the written count is only logged, not returned). -/
theorem C9_dump_artifacts_and_return :
    (∀ (de : DumpEnv) (store : Cache)
        (constraints : List (CNode → InstantiatedNode → Option String))
        (overwrite : Bool) (fs0 : List (String × String)),
      (DumpableInMemoryCache.dump de store constraints overwrite fs0).snd =
        Option.none) ∧
    (∀ (de : DumpEnv) (constraints : List (CNode → InstantiatedNode → Option String))
        (overwrite : Bool) (acc : List (String × String) × Nat) (k : CNode)
        (v : InstantiatedNode), constraintSkip constraints k v = true →
      dump_step de constraints overwrite acc (k, v) = acc) ∧
    (∀ (de : DumpEnv) (overwrite : Bool) (acc : List (String × String) × Nat)
        (k : CNode) (v : InstantiatedNode),
      fsHas acc.fst (de.hashStr (de.toYaml k) ++ ".yaml") = true → overwrite = false →
      dump_entry de overwrite acc k v = acc) ∧
    (∀ (de : DumpEnv) (overwrite : Bool) (acc : List (String × String) × Nat)
        (k : CNode) (v : InstantiatedNode),
      fsHas acc.fst (de.hashStr (de.toYaml k) ++ ".yaml") = false ∨ overwrite = true →
      fsFind (dump_entry de overwrite acc k v).fst
          (de.hashStr (de.toYaml k) ++ ".yaml") = Option.some (de.toYaml k) ∧
      fsFind (dump_entry de overwrite acc k v).fst
          (de.hashStr (de.toYaml k) ++ ".pkl") = Option.some (de.pickle v) ∧
      (dump_entry de overwrite acc k v).snd = acc.snd + 1) := by
  refine ⟨fun _ _ _ _ _ => rfl, ?_, ?_, ?_⟩
  · intro de constraints overwrite acc k v h
    simp only [dump_step, h, if_true]
  · intro de overwrite acc k v hhas hov
    simp only [dump_entry, hhas, hov, Bool.not_false, Bool.and_true, if_true]
  · intro de overwrite acc k v hcase
    have hcond : (fsHas acc.fst (de.hashStr (de.toYaml k) ++ ".yaml") &&
        !overwrite) = false := by
      rcases hcase with h | h
      · rw [h, Bool.false_and]
      · rw [h]
        simp
    simp only [dump_entry, hcond, Bool.false_eq_true, if_false]
    refine ⟨?_, ?_, ?_⟩
    · rw [fsFind_fsWrite_ne _ _ _ _ (fun heq => yaml_ne_pkl _ heq.symm),
        fsFind_fsWrite_eq]
    · rw [fsFind_fsWrite_eq]
    · trivial

/-- C9 counterexample: dumping a one-entry store writes one entry and logs
the count 1, but the function's return value is absent, not the count. -/
theorem C9_counterexample :
    (DumpableInMemoryCache.dump
        { toYaml := fun _ => "k", hashStr := fun s => s, pickle := fun _ => "v" }
        [(nodeG, { inst := Value.vnull })] [] false []).snd = Option.none ∧
    (DumpableInMemoryCache.dump
        { toYaml := fun _ => "k", hashStr := fun s => s, pickle := fun _ => "v" }
        [(nodeG, { inst := Value.vnull })] [] false []).fst.snd = 1 ∧
    (DumpableInMemoryCache.dump
        { toYaml := fun _ => "k", hashStr := fun s => s, pickle := fun _ => "v" }
        [(nodeG, { inst := Value.vnull })] [] false []).snd ≠
      Option.some (DumpableInMemoryCache.dump
        { toYaml := fun _ => "k", hashStr := fun s => s, pickle := fun _ => "v" }
        [(nodeG, { inst := Value.vnull })] [] false []).fst.snd := by
  decide

/-- C10 (amended): with the recursive flag off, argument evaluation
collects no child metadata and leaves the state untouched, and combine over
the empty metadata takes not_deterministic and cache_result from the
target's own flags with no child-derived substitute; a non-deterministic
target, however, still receives a result-hash placeholder substitute after
execution (see the counterexample). -/
theorem C10_nonrecursive_isolation :
    (∀ (env : EvalEnv) (convert : ConvertMode) (entries : CEntries) (st : EvalState),
      ∃ kws, instantiate_kwargs env convert false entries st =
        (Except.ok (kws, []), st)) ∧
    (∀ (pc : Option CNode) (ti : InstantiatedNodeInfo),
      (InstantiatedNodeInfo.combine [] pc (Option.some ti)
          Option.none).not_deterministic = ti.not_deterministic ∧
      (InstantiatedNodeInfo.combine [] pc (Option.some ti)
          Option.none).cache_result = ti.cache_result ∧
      (InstantiatedNodeInfo.combine [] pc (Option.some ti)
          Option.none).deterministic_config = Option.none) := by
  refine ⟨instantiate_kwargs_nonrec, ?_⟩
  intro pc ti
  refine ⟨rfl, ?_, rfl⟩
  rw [combine_cache_result]
  simp

/-- C10 counterexample: a non-recursive Call of the non-deterministic
target ends with a present result-hash substitute in its metadata, not an
absent one. -/
theorem C10_counterexample :
    (instantiate_node envT [] ConvertMode.mNone true nodeNR st0).fst.map
        (fun x => x.info.deterministic_config) =
      Except.ok (Option.some (resultHashPlaceholder (Value.vint 7))) ∧
    Option.some (resultHashPlaceholder (Value.vint 7)) ≠
      (Option.none : Option CNode) := by
  decide
